import Mathlib

/-!
Shallow embedding of src/algorithmic/constraint/algo_constraint.py
(classes AlgorithmicSolver, AlgorithmicPolicyRunner, BoolSatHelper and the
UnsatException signal), plus the small part of the environment interface the
code consumes.

Conventions of the embedding:
* Each pysmt boolean Symbol created by BoolSatHelper._rule_vars becomes a
  value of the inductive type Var; a literal is a variable paired with a
  polarity (true for the plain variable, false for its pysmt negation),
  matching the formulas the Python code stores in dirty_variables and
  dirty_buffer.
* The pysmt solver session is modelled by the list of formulas asserted so
  far together with an abstract backend function from assertion lists to an
  optional satisfying valuation (gym and pysmt are external collaborators).
* Python float rewards are modelled by the rationals.
* Fallible or possibly diverging code is modelled with Option: none stands
  for a crash (KeyError on the rules dictionary, the assert False branch of
  _lookup, get_py_value applied to the None placeholder of a size-1 domain)
  or for an unbounded while loop that has not terminated within the given
  fuel.
-/

namespace AlgoConstraint

/-- The three rule tables built in BoolSatHelper.__init__: direction_rules,
write_rules and state_rules. -/
inductive RuleKind
  | dir
  | write
  | state_
deriving DecidableEq, Repr

/-- Boolean decision variables, one per pysmt Symbol created by _rule_vars:
single is the lone Symbol used for a domain of size 2, onehot is one member
of the one-hot list used for a domain of size greater than 2.  The two
constructors carry the (state, input character) key of the rules dictionary;
onehot also carries the output value its Symbol stands for.  Distinct
constructor arguments correspond to distinct Symbol names in the source. -/
inductive Var
  | single (kind : RuleKind) (state obs : Nat)
  | onehot (kind : RuleKind) (state obs : Nat) (idx : Nat)
deriving DecidableEq, Repr

/-- A literal: a variable with a polarity.  (x, true) models the pysmt
formula x and (x, false) models Not(x), the two shapes _lookup can put into
the dirty sets. -/
abbrev Lit := Var × Bool

/-- Truth of a literal under a valuation. -/
def evalLit (v : Var → Bool) (l : Lit) : Bool :=
  if l.2 then v l.1 else !(v l.1)

/-- The formulas the code ever asserts into the solver session: the
ExactlyOne cardinality constraint of add_base_constraints, and the negated
conjunction Not(And(literals)) asserted by resolve. -/
inductive Formula
  | exactlyOne (xs : List Var)
  | notAnd (s : Finset Lit)
deriving DecidableEq

/-- Semantics of the asserted formulas (the satisfiability backend is an
external collaborator, so the pysmt connectives are modelled by their
standard boolean semantics). -/
def Formula.eval (v : Var → Bool) : Formula → Bool
  | Formula.exactlyOne xs => xs.countP (fun x => v x) == 1
  | Formula.notAnd s => !(decide (∀ l ∈ s, evalLit v l = true))

/-- The variables a formula mentions. -/
def formulaVars : Formula → Finset Var
  | Formula.exactlyOne xs => xs.toFinset
  | Formula.notAnd s => s.image Prod.fst

/-- The controller shape parameters read off the environment in
BoolSatHelper.__init__: the direction count dirs.n, the character count
write_chars.n (so chars_plus has n_chars + 1 members) and the chosen state
count n_states. -/
structure Params where
  n_dirs : Nat
  n_chars : Nat
  n_states : Nat
deriving DecidableEq, Repr

/-- Domain size of each rule table: dirs for direction_rules, chars_plus
(all characters plus the do-not-write value) for write_rules, states for
state_rules. -/
def kindDomain (p : Params) : RuleKind → Nat
  | RuleKind.dir => p.n_dirs
  | RuleKind.write => p.n_chars + 1
  | RuleKind.state_ => p.n_states

/-- The one-hot variable list _rule_vars builds for one key of a domain of
size d greater than 2 (one Symbol per output value). -/
def groupVars (k : RuleKind) (state obs d : Nat) : List Var :=
  (List.range d).map (fun j => Var.onehot k state obs j)

/-- The value stored in the rules dictionary for one key: a single Symbol
for a two-valued domain, a one-hot list for a larger domain, and the None
placeholder when the domain has exactly one value (the warning branch of
_rule_vars). -/
inductive RuleRep
  | none_
  | single (x : Var)
  | onehot (xs : List Var)
deriving DecidableEq, Repr

/-- What _rule_vars stores for a given key, by domain size d. -/
def ruleRep (k : RuleKind) (d state obs : Nat) : RuleRep :=
  if d = 2 then RuleRep.single (Var.single k state obs)
  else if 2 < d then RuleRep.onehot (groupVars k state obs d)
  else RuleRep.none_

/-- Dictionary access rules[(state, obs)]: the keys present are exactly the
product of states and chars_plus; any other key raises KeyError (none). -/
def getRule (p : Params) (k : RuleKind) (state obs : Nat) : Option RuleRep :=
  if state < p.n_states ∧ obs < p.n_chars + 1 then
    some (ruleRep k (kindDomain p k) state obs)
  else none

/-- The mutable provenance state of BoolSatHelper: dirty_variables (the
committed set) and dirty_buffer (the pending buffer), both Python sets of
pysmt literal formulas. -/
structure HState where
  dirty_variables : Finset Lit
  dirty_buffer : Finset Lit
deriving DecidableEq

/-- BoolSatHelper.clear_dirty: empty both sets. -/
def clear_dirty (_ : HState) : HState := ⟨∅, ∅⟩

/-- The buffer flush performed at the top of get_action: move the buffered
literals into dirty_variables and empty the buffer.  (The source guards
this with a non-emptiness test; flushing an empty buffer is the identity on
both sets, so the guard is behaviourally irrelevant.) -/
def flushBuffer (st : HState) : HState :=
  ⟨st.dirty_variables ∪ st.dirty_buffer, ∅⟩

/-- Recording a decoded literal, per the buff flag of _lookup: buffered
literals go to dirty_buffer, committed ones to dirty_variables. -/
def record (st : HState) (l : Lit) (buff : Bool) : HState :=
  if buff then { st with dirty_buffer := insert l st.dirty_buffer }
  else { st with dirty_variables := insert l st.dirty_variables }

/-- First index (with its variable) holding true, mirroring the
for-enumerate-break loop of _lookup over a one-hot list. -/
def firstTrue (v : Var → Bool) : List Var → Option (Nat × Var)
  | [] => none
  | x :: xs =>
    if v x then some (0, x)
    else (firstTrue v xs).map (fun q => (q.1 + 1, q.2))

/-- The decode step of _lookup: the returned integer together with the
literal recorded about it.  A one-hot list yields the first true member and
its positive literal (the for-else assert False branch, reached when no
member is true, is the none case); a single Symbol yields int(val) and the
Symbol itself when true, its negation when false; the None placeholder of a
size-1 domain crashes. -/
def decodeRep (v : Var → Bool) : RuleRep → Option (Nat × Lit)
  | RuleRep.none_ => none
  | RuleRep.single x => some (if v x then 1 else 0, (x, v x))
  | RuleRep.onehot xs => (firstTrue v xs).map (fun q => (q.1, (q.2, true)))

/-- The rules-entry fetch and decode of one _lookup call (everything it
does apart from the recording side effect). -/
def decodeAt (p : Params) (v : Var → Bool) (k : RuleKind) (obs state : Nat) :
    Option (Nat × Lit) :=
  match getRule p k state obs with
  | none => none
  | some rep => decodeRep v rep

/-- BoolSatHelper._lookup: fetch the rules entry, decode it under the
current assignment, and record the literal into the buffer or the committed
set according to buff. -/
def lookupRule (p : Params) (v : Var → Bool) (k : RuleKind) (st : HState)
    (obs state : Nat) (buff : Bool) : Option (Nat × HState) :=
  match decodeAt p v k obs state with
  | none => none
  | some rl => some (rl.1, record st rl.2 buff)

/-- BoolSatHelper.get_action: flush the pending buffer, decode the
direction rule (buffered) and the write rule (committed immediately), and
return (dirno, do_write, to_write). -/
def get_action (p : Params) (v : Var → Bool) (st : HState) (obs state : Nat) :
    Option ((Nat × Nat × Nat) × HState) :=
  let st0 := flushBuffer st
  match lookupRule p v RuleKind.dir st0 obs state true with
  | none => none
  | some dl =>
    match lookupRule p v RuleKind.write dl.2 obs state false with
    | none => none
    | some wl =>
      some ((dl.1, if wl.1 = p.n_chars then 0 else 1, min wl.1 (p.n_chars - 1)), wl.2)

/-- BoolSatHelper.get_state: the constant 0 with no provenance when
n_states is 1, otherwise a buffered decode of the state rule. -/
def get_state (p : Params) (v : Var → Bool) (st : HState) (obs state : Nat) :
    Option (Nat × HState) :=
  if p.n_states = 1 then some (0, st)
  else lookupRule p v RuleKind.state_ st obs state true

/-- One body iteration of the episode loop of
AlgorithmicPolicyRunner.run_episode as far as the helper is concerned:
action = get_action(obs, state) followed by state = get_state(obs, state).
Returns the action, the next internal state and the updated helper state. -/
def episodeBody (p : Params) (v : Var → Bool) (st : HState) (obs state : Nat) :
    Option ((Nat × Nat × Nat) × Nat × HState) :=
  match get_action p v st obs state with
  | none => none
  | some a =>
    match get_state p v a.2 obs state with
    | none => none
    | some s => some (a.1, s.1, s.2)

/-- The environment interface consumed by the code (a gym algorithmic
environment, an external collaborator): reset returns an observation, step
consumes an action (direction, write flag, character) and returns the next
observation, a reward, and the done flag; the registration spec carries
reward_threshold and trials.  The hidden environment state E threads the
stochastic tape and the adaptive difficulty. -/
structure EnvModel (E : Type) where
  reset : E → E × Nat
  step : E → Nat × Nat × Nat → E × Nat × ℚ × Bool
  reward_threshold : ℚ
  trials : Nat

/-- The while-not-done loop of AlgorithmicPolicyRunner.run_episode, fuelled
(the source loop is unbounded; none means it did not finish within fuel).
Each pass computes the action and next state via the helper, advances the
environment and accumulates reward; on done it returns
(reward > 0, total_reward) together with the final helper and environment
states. -/
def runEpisodeLoop (p : Params) (v : Var → Bool) {E : Type} (env : EnvModel E) :
    Nat → E → Nat → Nat → HState → ℚ → Option (Bool × ℚ × HState × E)
  | 0, _, _, _, _, _ => none
  | fuel + 1, e, obs, state, st, total =>
    match episodeBody p v st obs state with
    | none => none
    | some (a, state', st') =>
      match env.step e a with
      | (e', obs', r, done) =>
        if done then some (decide (0 < r), total + r, st', e')
        else runEpisodeLoop p v env fuel e' obs' state' st' (total + r)

/-- AlgorithmicPolicyRunner.run_episode: reset the environment, run the
loop from observation obs0, internal state 0 and total reward 0. -/
def run_episode (p : Params) (v : Var → Bool) {E : Type} (env : EnvModel E)
    (epFuel : Nat) (e : E) (st : HState) : Option (Bool × ℚ × HState × E) :=
  match env.reset e with
  | (e1, obs0) => runEpisodeLoop p v env epFuel e1 obs0 0 st 0

/-- The observation fed to the helper at each executed step of the episode
(same recursion as runEpisodeLoop, collecting the obs arguments). -/
def episodeTraceLoop (p : Params) (v : Var → Bool) {E : Type} (env : EnvModel E) :
    Nat → E → Nat → Nat → HState → Option (List Nat)
  | 0, _, _, _, _ => none
  | fuel + 1, e, obs, state, st =>
    match episodeBody p v st obs state with
    | none => none
    | some (a, state', st') =>
      match env.step e a with
      | (e', obs', _, done) =>
        if done then some [obs]
        else (episodeTraceLoop p v env fuel e' obs' state' st').map (fun l => obs :: l)

/-- The observation trace of a whole episode, starting from reset. -/
def episodeTrace (p : Params) (v : Var → Bool) {E : Type} (env : EnvModel E)
    (epFuel : Nat) (e : E) (st : HState) : Option (List Nat) :=
  match env.reset e with
  | (e1, obs0) => episodeTraceLoop p v env epFuel e1 obs0 0 st

/-- The helper-state evolution of an episode determined by its observation
trace alone: one episodeBody pass per observation. -/
def runObsSteps (p : Params) (v : Var → Bool) :
    List Nat → Nat → HState → Option (Nat × HState)
  | [], state, st => some (state, st)
  | obs :: rest, state, st =>
    match episodeBody p v st obs state with
    | none => none
    | some (_, state', st') => runObsSteps p v rest state' st'

/-- The write-rule literal a step at (obs, state) commits. -/
def stepWriteLit (p : Params) (v : Var → Bool) (obs state : Nat) : Option Lit :=
  (decodeAt p v RuleKind.write obs state).map (fun rl => rl.2)

/-- The direction-rule literal a step at (obs, state) buffers. -/
def stepDirLit (p : Params) (v : Var → Bool) (obs state : Nat) : Option Lit :=
  (decodeAt p v RuleKind.dir obs state).map (fun rl => rl.2)

/-- The pending decision pair of a step: its direction literal, plus its
state-transition literal unless n_states is 1 (in which case get_state
records nothing). -/
def stepPendLits (p : Params) (v : Var → Bool) (obs state : Nat) : Option (Finset Lit) :=
  if p.n_states = 1 then (stepDirLit p v obs state).map (fun l => {l})
  else
    match stepDirLit p v obs state with
    | none => none
    | some dl =>
      match decodeAt p v RuleKind.state_ obs state with
      | none => none
      | some rl => some {dl, rl.2}

/-- The internal state a step at (obs, state) moves to. -/
def nextCtrlState (p : Params) (v : Var → Bool) (obs state : Nat) : Option Nat :=
  (get_state p v ⟨∅, ∅⟩ obs state).map Prod.fst

/-- Spec-side description of the provenance of one episode, following the
words of Scenario D of the spec: for an episode whose observation trace has
k steps, the first component is the committed set (the write-decision
literals of steps 1..k together with the direction and next-state decision
literals of steps 1..k-1) and the second is the pending buffer (the
direction and next-state decision literals of step k alone). -/
def specProvenance (p : Params) (v : Var → Bool) :
    List Nat → Nat → Option (Finset Lit × Finset Lit)
  | [], _ => some (∅, ∅)
  | obs :: rest, state =>
    match stepWriteLit p v obs state, stepPendLits p v obs state,
          nextCtrlState p v obs state with
    | some w, some pend, some state' =>
      match rest with
      | [] => some ({w}, pend)
      | obs' :: rest' =>
        match specProvenance p v (obs' :: rest') state' with
        | none => none
        | some cp => some (insert w (pend ∪ cp.1), cp.2)
    | _, _, _ => none

/-- The exception class raised by BoolSatHelper.resolve when the solver
reports unsatisfiability. -/
inductive UnsatException
  | mk
deriving DecidableEq

/-- The assertion resolve adds before re-solving: nothing when
dirty_variables is empty, otherwise the single nogood clause
Not(And(dirty_variables)). -/
def nogoodAssertions (st : HState) : List Formula :=
  if st.dirty_variables = ∅ then [] else [Formula.notAnd st.dirty_variables]

/-- BoolSatHelper.resolve: assert the nogood learned from dirty_variables
(if any), empty both dirty sets, and re-solve the session.  The solver
session is the assertion list A together with the abstract backend B; a
backend answer of none models an unsat report, on which resolve raises
UnsatException (the Except.error value). -/
def resolve (B : List Formula → Option (Var → Bool)) (A : List Formula)
    (st : HState) : (List Formula × HState) × Except UnsatException (Var → Bool) :=
  let A' := A ++ nogoodAssertions st
  ((A', ⟨∅, ∅⟩),
    match B A' with
    | some v => Except.ok v
    | none => Except.error UnsatException.mk)

/-- The episode loop of AlgorithmicSolver.try_model, by remaining episode
budget (the source counts i up to max_eps; remaining = max_eps - i).  The
accumulator lastR is the Python local reward, unbound (none) before the
first episode; goodeps counts successful episodes.  Each pass: run an
episode; a failed episode breaks; a successful one reaching the reward
threshold breaks; otherwise clear_dirty and continue.  After the loop the
code returns reward >= reward_threshold.  The result carries the final
values of (that boolean, reward, goodeps) plus the helper and environment
states. -/
def tryModelLoop (p : Params) (v : Var → Bool) {E : Type} (env : EnvModel E)
    (epFuel : Nat) : Nat → E → HState → Nat → Option ℚ →
    Option (Bool × ℚ × Nat × HState × E)
  | 0, e, st, goodeps, lastR =>
    lastR.map (fun r => (decide (env.reward_threshold ≤ r), r, goodeps, st, e))
  | rem + 1, e, st, goodeps, _ =>
    match run_episode p v env epFuel e st with
    | none => none
    | some (succ, r, st', e') =>
      if succ then
        if env.reward_threshold ≤ r then
          some (decide (env.reward_threshold ≤ r), r, goodeps + 1, st', e')
        else tryModelLoop p v env epFuel rem e' (clear_dirty st') (goodeps + 1) (some r)
      else some (decide (env.reward_threshold ≤ r), r, goodeps, st', e')

/-- AlgorithmicSolver.try_model (the source fixes max_eps = 100000; it is a
parameter here).  Returns the success boolean of try_model together with
the final reward, goodeps, helper state and environment state. -/
def try_model (p : Params) (v : Var → Bool) {E : Type} (env : EnvModel E)
    (epFuel max_eps : Nat) (e : E) (st : HState) :
    Option (Bool × ℚ × Nat × HState × E) :=
  tryModelLoop p v env epFuel max_eps e st 0 none

/-- The terminal states of the refinement loop: try_model succeeded, the
solver proved unsatisfiability (possibilities exhausted), or the iteration
budget ran out. -/
inductive Outcome
  | succeeded
  | exhausted
  | aborted
deriving DecidableEq, Repr

/-- What AlgorithmicSolver.solve returns in each terminal state: True only
on success, False both on exhaustion and on running out of iterations. -/
def outcomeBool : Outcome → Bool
  | Outcome.succeeded => true
  | Outcome.exhausted => false
  | Outcome.aborted => false

/-- The loop guard i < maxiters, where maxiters is float inf by default
(none) or a finite budget (some m). -/
def budgetLeft (maxiters : Option Nat) (i : Nat) : Bool :=
  match maxiters with
  | none => true
  | some m => decide (i < m)

/-- The while loop of AlgorithmicSolver.solve, fuelled: while i < maxiters,
resolve (catching UnsatException as the exhausted outcome) then try_model
(success ends the loop, failure continues with the freshly dirtied helper
state).  i counts completed iterations as in the source.  The result also
carries the assertion list held by the solver session at exit. -/
def solveAux (p : Params) (B : List Formula → Option (Var → Bool)) {E : Type}
    (env : EnvModel E) (epFuel max_eps : Nat) (maxiters : Option Nat) :
    Nat → Nat → List Formula → HState → E → Option (Outcome × List Formula)
  | 0, _, _, _, _ => none
  | fuel + 1, i, A, st, e =>
    if budgetLeft maxiters i then
      match resolve B A st with
      | ((A', _), Except.error _) => some (Outcome.exhausted, A')
      | ((A', st'), Except.ok v) =>
        match try_model p v env epFuel max_eps e st' with
        | none => none
        | some (b, _, _, st'', e'') =>
          if b then some (Outcome.succeeded, A')
          else solveAux p B env epFuel max_eps maxiters fuel (i + 1) A' st'' e''
    else some (Outcome.aborted, A)

/-- The keys of each rules dictionary: itertools.product(states, chars_plus). -/
def keysList (p : Params) : List (Nat × Nat) :=
  (List.range p.n_states).flatMap
    (fun s => (List.range (p.n_chars + 1)).map (fun o => (s, o)))

/-- The cardinality constraints one rule table contributes in
add_base_constraints: none when its domain has fewer than 2 values (the
warning branch) or exactly 2 values (excluded middle), and one ExactlyOne
formula per key otherwise. -/
def constraintsFor (p : Params) (k : RuleKind) : List Formula :=
  if kindDomain p k < 2 then []
  else if kindDomain p k = 2 then []
  else (keysList p).map
    (fun so => Formula.exactlyOne (groupVars k so.1 so.2 (kindDomain p k)))

/-- BoolSatHelper.add_base_constraints: the a-priori assertions made at
construction, for the direction, write and state tables in that order. -/
def add_base_constraints (p : Params) : List Formula :=
  constraintsFor p RuleKind.dir ++ constraintsFor p RuleKind.write ++
    constraintsFor p RuleKind.state_

/-- AlgorithmicSolver.solve as seen by its caller: the boolean the Python
method returns.  The session starts from the base constraints asserted at
construction and an empty provenance state. -/
def solve (p : Params) (B : List Formula → Option (Var → Bool)) {E : Type}
    (env : EnvModel E) (epFuel max_eps : Nat) (maxiters : Option Nat)
    (fuel : Nat) (e : E) : Option Bool :=
  (solveAux p B env epFuel max_eps maxiters fuel 0 (add_base_constraints p) ⟨∅, ∅⟩ e).map
    (fun x => outcomeBool x.1)

/-- The variables a rules entry holds. -/
def repVars : RuleRep → List Var
  | RuleRep.none_ => []
  | RuleRep.single x => [x]
  | RuleRep.onehot xs => xs

/-- Every variable of the three rule tables, as a list. -/
def allVarsList (p : Params) : List Var :=
  (keysList p).flatMap (fun so =>
    repVars (ruleRep RuleKind.dir (kindDomain p RuleKind.dir) so.1 so.2) ++
    repVars (ruleRep RuleKind.write (kindDomain p RuleKind.write) so.1 so.2) ++
    repVars (ruleRep RuleKind.state_ (kindDomain p RuleKind.state_) so.1 so.2))

/-- The finite variable set of the encoding for a fixed state count. -/
def allVars (p : Params) : Finset Var := (allVarsList p).toFinset

/-- A valuation satisfies an assertion list when it makes every asserted
formula true. -/
def satisfies (v : Var → Bool) (A : List Formula) : Prop :=
  ∀ f ∈ A, f.eval v = true

/-- The variables an assertion list mentions. -/
def listVars : List Formula → Finset Var
  | [] => ∅
  | f :: rest => formulaVars f ∪ listVars rest

/-- Invariant maintained by the provenance sets while a candidate given by
the assignment v is evaluated: every recorded literal is true under v and
speaks about a variable of the encoding. -/
def stOK (p : Params) (v : Var → Bool) (st : HState) : Prop :=
  ∀ l ∈ st.dirty_variables ∪ st.dirty_buffer,
    evalLit v l = true ∧ l.1 ∈ allVars p

/-- Contract of the external satisfiability backend (pysmt solver): a
returned valuation satisfies every asserted formula, and an unsat report
over formulas inside the declared variable set means no valuation at all
satisfies them. -/
def BackendOk (p : Params) (B : List Formula → Option (Var → Bool)) : Prop :=
  (∀ A v, B A = some v → satisfies v A) ∧
  (∀ A, listVars A ⊆ allVars p → B A = none → ∀ w, ¬ satisfies w A)

/-- Contract of the environment during one synthesis run: under any
assignment satisfying the base constraints, every episode terminates
(within the episode fuel), and no candidate evaluation ends undecided at
the max_eps failsafe cap (the anomalous branch the source only logs). -/
def EnvOk (p : Params) {E : Type} (env : EnvModel E) (epFuel max_eps : Nat) : Prop :=
  (∀ v, satisfies v (add_base_constraints p) →
    ∀ e st, (run_episode p v env epFuel e st).isSome = true) ∧
  (∀ v, satisfies v (add_base_constraints p) →
    ∀ e st b r g st' e', try_model p v env epFuel max_eps e st = some (b, r, g, st', e') →
      b = false → g < max_eps)

/-- Restrictions of a valuation to the finite variable set of the encoding. -/
abbrev Restr (p : Params) := {x : Var // x ∈ allVars p} → Bool

/-- Extend a restriction to a full valuation (false off the variable set). -/
def extendR (p : Params) (g : Restr p) : Var → Bool :=
  fun x => if h : x ∈ allVars p then g ⟨x, h⟩ else false

/-- Restrict a valuation to the variable set. -/
def restrR (p : Params) (v : Var → Bool) : Restr p := fun x => v x.1

/-- How many restricted assignments satisfy an assertion list: the measure
that each learned nogood strictly decreases. -/
def satCount (p : Params) (A : List Formula) : Nat :=
  (Finset.univ.filter
    (fun g : Restr p => A.all (fun f => f.eval (extendR p g)) = true)).card

/-- All valuations over a given variable list (up to agreement on it). -/
def buildCands : List Var → List (Var → Bool)
  | [] => [fun _ => false]
  | x :: xs =>
    (buildCands xs).flatMap
      (fun w => [Function.update w x true, Function.update w x false])

/-- A reference backend satisfying the contract: brute-force search over
all assignments to the encoding variables. -/
def bruteBackend (p : Params) : List Formula → Option (Var → Bool) :=
  fun A => (buildCands (allVarsList p)).find? (fun w => A.all (fun f => f.eval w))

/-- Concrete shape parameters of a Copy-style task: 2 directions, a
1-character alphabet, 1 controller state (every rule table is a single
boolean). -/
def pX : Params := ⟨2, 1, 1⟩

/-- The all-false assignment (well formed for pX, which has no one-hot
group). -/
def vX : Var → Bool := fun _ => false

/-- A degenerate environment on which every episode ends at its first step
with reward 30 (above the threshold 25); its registration spec demands 2
trials. -/
def envWin : EnvModel Unit :=
  { reset := fun e => (e, 0)
    step := fun e _ => (e, 0, 30, true)
    reward_threshold := 25
    trials := 2 }

/-- An environment on which every episode succeeds at its first step but
with reward 1, below the threshold 25 (a non-final qualifying success in
the sense of the loop: a success that does not reach the threshold). -/
def envLow : EnvModel Unit :=
  { reset := fun e => (e, 0)
    step := fun e _ => (e, 0, 1, true)
    reward_threshold := 25
    trials := 2 }

/-- An environment on which every episode fails at its first step. -/
def envFail : EnvModel Unit :=
  { reset := fun e => (e, 0)
    step := fun e _ => (e, 0, -1, true)
    reward_threshold := 25
    trials := 2 }

/-- A backend that reports unsatisfiability immediately. -/
def bNone : List Formula → Option (Var → Bool) := fun _ => none

/-- The helper state after one step of pX under vX: the write literal
committed, the direction literal buffered. -/
def stX : HState :=
  ⟨{(Var.single RuleKind.write 0 0, false)},
   {(Var.single RuleKind.dir 0 0, false)}⟩

/-- Shape parameters with a one-hot write table: 2 directions, 2
characters (so the write domain chars_plus has 3 values), 1 state. -/
def p7 : Params := ⟨2, 2, 1⟩

/-- An assignment making exactly the index-1 member of every one-hot group
true (and all single variables false). -/
def v7 : Var → Bool :=
  fun x => match x with
    | Var.onehot _ _ _ j => decide (j = 1)
    | Var.single _ _ _ => false

theorem evalLit_true_iff (v : Var → Bool) (x : Var) (b : Bool) :
    evalLit v (x, b) = true ↔ v x = b := by
  cases b <;> simp [evalLit]

theorem notAnd_eval_true_iff (s : Finset Lit) (w : Var → Bool) :
    (Formula.notAnd s).eval w = true ↔ ∃ l ∈ s, evalLit w l = false := by
  show (!(decide (∀ l ∈ s, evalLit w l = true))) = true ↔ _
  rw [Bool.not_eq_true', decide_eq_false_iff_not]
  constructor
  · intro h
    by_contra hne
    push_neg at hne
    refine h (fun l hl => ?_)
    have hne' := hne l hl
    cases he : evalLit w l
    · exact absurd he hne'
    · rfl
  · rintro ⟨l, hl, hf⟩ hall
    rw [hall l hl] at hf
    cases hf

theorem firstTrue_spec (v : Var → Bool) :
    ∀ (xs : List Var) (i : Nat) (x : Var), firstTrue v xs = some (i, x) →
      xs[i]? = some x ∧ v x = true := by
  intro xs
  induction xs with
  | nil => intro i x h; simp [firstTrue] at h
  | cons y ys ih =>
    intro i x h
    rw [firstTrue] at h
    by_cases hy : v y = true
    · rw [if_pos hy] at h
      simp only [Option.some.injEq, Prod.mk.injEq] at h
      obtain ⟨rfl, rfl⟩ := h
      exact ⟨by simp, hy⟩
    · rw [if_neg hy, Option.map_eq_some'] at h
      obtain ⟨⟨j, z⟩, hj, he⟩ := h
      simp only [Prod.mk.injEq] at he
      obtain ⟨rfl, rfl⟩ := he
      have hspec := ih j z hj
      exact ⟨by simpa using hspec.1, hspec.2⟩

theorem firstTrue_isSome (v : Var → Bool) :
    ∀ (xs : List Var), (∃ x ∈ xs, v x = true) → (firstTrue v xs).isSome = true := by
  intro xs
  induction xs with
  | nil => intro h; simp at h
  | cons y ys ih =>
    intro h
    rw [firstTrue]
    by_cases hy : v y = true
    · simp [hy]
    · obtain ⟨x, hx, hvx⟩ := h
      rcases List.mem_cons.mp hx with rfl | hx'
      · exact absurd hvx hy
      · rw [if_neg hy]
        obtain ⟨q, hq⟩ := Option.isSome_iff_exists.mp (ih ⟨x, hx', hvx⟩)
        rw [hq]
        rfl

theorem countP_one_unique {α : Type} (q : α → Bool) :
    ∀ (xs : List α), xs.countP q = 1 →
      ∀ (i j : Nat) (x y : α), xs[i]? = some x → xs[j]? = some y →
        q x = true → q y = true → i = j := by
  intro xs
  induction xs with
  | nil => intro _ i j x y hi; simp at hi
  | cons z zs ih =>
    intro hc i j x y hi hj hx hy
    rw [List.countP_cons] at hc
    by_cases hz : q z = true
    · rw [if_pos hz] at hc
      have hzero : zs.countP q = 0 := by omega
      have hnone : ∀ a ∈ zs, ¬ q a = true := List.countP_eq_zero.mp hzero
      cases i with
      | zero =>
        cases j with
        | zero => rfl
        | succ j' =>
          have hj' : zs[j']? = some y := by simpa using hj
          exact absurd hy (hnone y (List.getElem?_mem hj'))
      | succ i' =>
        have hi' : zs[i']? = some x := by simpa using hi
        exact absurd hx (hnone x (List.getElem?_mem hi'))
    · rw [if_neg hz] at hc
      cases i with
      | zero =>
        have hxz : z = x := by simpa using hi
        subst hxz
        exact absurd hx hz
      | succ i' =>
        cases j with
        | zero =>
          have hyz : z = y := by simpa using hj
          subst hyz
          exact absurd hy hz
        | succ j' =>
          have hrec := ih (by omega) i' j' x y (by simpa using hi) (by simpa using hj) hx hy
          omega

theorem decode_onehot_of_countP_one (v : Var → Bool) (xs : List Var)
    (h : xs.countP (fun x => v x) = 1) :
    ∃ n x, decodeRep v (RuleRep.onehot xs) = some (n, (x, true)) ∧
      xs[n]? = some x ∧ v x = true ∧
      ∀ j y, xs[j]? = some y → v y = true → j = n := by
  have hex : ∃ x ∈ xs, v x = true := by
    have : 0 < xs.countP (fun x => v x) := by omega
    simpa using List.countP_pos_iff.mp this
  have hsome := firstTrue_isSome v xs hex
  obtain ⟨⟨n, x⟩, hft⟩ := Option.isSome_iff_exists.mp hsome
  have hspec := firstTrue_spec v xs n x hft
  refine ⟨n, x, ?_, hspec.1, hspec.2, ?_⟩
  · simp [decodeRep, hft]
  · intro j y hj hy
    exact countP_one_unique (fun x => v x) xs h j n y x hj hspec.1 hy hspec.2

theorem decodeRep_evalLit (v : Var → Bool) (rep : RuleRep) (n : Nat) (l : Lit)
    (h : decodeRep v rep = some (n, l)) : evalLit v l = true := by
  cases rep with
  | none_ => exact Option.noConfusion h
  | single x =>
    simp only [decodeRep, Option.some.injEq, Prod.mk.injEq] at h
    obtain ⟨-, rfl⟩ := h
    cases hv : v x <;> simp [evalLit, hv]
  | onehot xs =>
    simp only [decodeRep, Option.map_eq_some'] at h
    obtain ⟨⟨j, z⟩, hj, he⟩ := h
    simp only [Prod.mk.injEq] at he
    obtain ⟨-, rfl⟩ := he
    have := (firstTrue_spec v xs j z hj).2
    simpa [evalLit] using this

theorem decodeRep_memVars (v : Var → Bool) (rep : RuleRep) (n : Nat) (l : Lit)
    (h : decodeRep v rep = some (n, l)) : l.1 ∈ repVars rep := by
  cases rep with
  | none_ => exact Option.noConfusion h
  | single x =>
    simp only [decodeRep, Option.some.injEq, Prod.mk.injEq] at h
    obtain ⟨-, rfl⟩ := h
    simp [repVars]
  | onehot xs =>
    simp only [decodeRep, Option.map_eq_some'] at h
    obtain ⟨⟨j, z⟩, hj, he⟩ := h
    simp only [Prod.mk.injEq] at he
    obtain ⟨-, rfl⟩ := he
    have := (firstTrue_spec v xs j z hj).1
    simpa [repVars] using List.getElem?_mem this

theorem groupVars_length (k : RuleKind) (state obs d : Nat) :
    (groupVars k state obs d).length = d := by
  simp [groupVars]

theorem firstTrue_lt (v : Var → Bool) (xs : List Var) (i : Nat) (x : Var)
    (h : firstTrue v xs = some (i, x)) : i < xs.length := by
  have hg := (firstTrue_spec v xs i x h).1
  rw [List.getElem?_eq_some] at hg
  exact hg.1

theorem decodeAt_lt (p : Params) (v : Var → Bool) (k : RuleKind)
    (obs state n : Nat) (l : Lit)
    (h : decodeAt p v k obs state = some (n, l)) : n < kindDomain p k := by
  unfold decodeAt at h
  cases hg : getRule p k state obs with
  | none => rw [hg] at h; exact Option.noConfusion h
  | some rep =>
    rw [hg] at h
    have h : decodeRep v rep = some (n, l) := h
    unfold getRule at hg
    by_cases hk : state < p.n_states ∧ obs < p.n_chars + 1
    · rw [if_pos hk, Option.some.injEq] at hg
      subst hg
      unfold ruleRep at h
      by_cases h2 : kindDomain p k = 2
      · rw [if_pos h2] at h
        simp only [decodeRep, Option.some.injEq, Prod.mk.injEq] at h
        obtain ⟨rfl, -⟩ := h
        by_cases hv : v (Var.single k state obs) = true <;> simp [hv] <;> omega
      · rw [if_neg h2] at h
        by_cases h3 : 2 < kindDomain p k
        · rw [if_pos h3] at h
          simp only [decodeRep, Option.map_eq_some'] at h
          obtain ⟨⟨j, z⟩, hj, he⟩ := h
          simp only [Prod.mk.injEq] at he
          obtain ⟨rfl, -⟩ := he
          have := firstTrue_lt v _ j z hj
          simpa [groupVars_length] using this
        · rw [if_neg h3] at h
          exact Option.noConfusion h
    · rw [if_neg hk] at hg
      exact Option.noConfusion hg

theorem get_action_unfold (p : Params) (v : Var → Bool) (st : HState)
    (obs state : Nat) :
    get_action p v st obs state =
      match decodeAt p v RuleKind.dir obs state with
      | none => none
      | some dl =>
        match decodeAt p v RuleKind.write obs state with
        | none => none
        | some wl =>
          some ((dl.1, if wl.1 = p.n_chars then 0 else 1, min wl.1 (p.n_chars - 1)),
                record (record (flushBuffer st) dl.2 true) wl.2 false) := by
  unfold get_action lookupRule
  cases decodeAt p v RuleKind.dir obs state with
  | none => rfl
  | some dl =>
    cases decodeAt p v RuleKind.write obs state with
    | none => rfl
    | some wl => rfl

/-- Claim C9: get_action returns writeFlag 0 exactly when the decoded
write-rule value equals n_chars (the do-not-write value), in which case the
returned character is the clamped value n_chars - 1; otherwise it returns
writeFlag 1 and the character equals the decoded value, which is strictly
below n_chars. -/
theorem write_flag_semantics (p : Params) (v : Var → Bool) (st : HState)
    (obs state dn f w : Nat) (st' : HState)
    (h : get_action p v st obs state = some ((dn, f, w), st')) :
    ∃ wn lw, decodeAt p v RuleKind.write obs state = some (wn, lw) ∧
      wn ≤ p.n_chars ∧
      (f = 0 ↔ wn = p.n_chars) ∧
      (wn = p.n_chars → f = 0 ∧ w = p.n_chars - 1) ∧
      (wn ≠ p.n_chars → f = 1 ∧ w = wn ∧ wn < p.n_chars) := by
  rw [get_action_unfold] at h
  cases hd : decodeAt p v RuleKind.dir obs state with
  | none => rw [hd] at h; exact absurd h (by simp)
  | some dl =>
    rw [hd] at h
    cases hw : decodeAt p v RuleKind.write obs state with
    | none => rw [hw] at h; exact absurd h (by simp)
    | some wl =>
      rw [hw] at h
      simp only [Option.some.injEq, Prod.mk.injEq] at h
      obtain ⟨⟨-, hf, hwr⟩, -⟩ := h
      have hlt : wl.1 < p.n_chars + 1 := decodeAt_lt p v RuleKind.write obs state wl.1 wl.2 hw
      have hle : wl.1 ≤ p.n_chars := by omega
      refine ⟨wl.1, wl.2, rfl, hle, ?_, ?_, ?_⟩
      · constructor
        · intro hf0
          by_contra hne
          rw [if_neg hne] at hf
          omega
        · intro he; rw [if_pos he] at hf; omega
      · intro he
        rw [if_pos he] at hf
        refine ⟨hf.symm, ?_⟩
        rw [← hwr, he]
        omega
      · intro hne
        rw [if_neg hne] at hf
        have hltc : wl.1 < p.n_chars := by omega
        refine ⟨hf.symm, ?_, hltc⟩
        rw [← hwr]
        omega

/-- Witness for C9 at a concrete input: pX with the all-false assignment,
where the write rule decodes to 0, below n_chars = 1, so the flag is 1 and
the character is the decoded 0. -/
theorem write_flag_semantics_witness :
    (get_action pX vX ⟨∅, ∅⟩ 0 0 =
      some ((0, 1, 0), ⟨{(Var.single RuleKind.write 0 0, false)},
                        {(Var.single RuleKind.dir 0 0, false)}⟩)) ∧
    (∃ wn lw, decodeAt pX vX RuleKind.write 0 0 = some (wn, lw) ∧
      wn ≤ pX.n_chars ∧
      ((1 : Nat) = 0 ↔ wn = pX.n_chars) ∧
      (wn = pX.n_chars → (1 : Nat) = 0 ∧ (0 : Nat) = pX.n_chars - 1) ∧
      (wn ≠ pX.n_chars → (1 : Nat) = 1 ∧ (0 : Nat) = wn ∧ wn < pX.n_chars)) :=
  ⟨by decide,
   write_flag_semantics pX vX ⟨∅, ∅⟩ 0 0 0 1 0
     ⟨{(Var.single RuleKind.write 0 0, false)}, {(Var.single RuleKind.dir 0 0, false)}⟩
     (by decide)⟩

/-- Claim C10: every literal a decode records has the fixed polarity rule:
a one-hot group contributes only the positive literal of its (under the
cardinality constraint, unique) true member, a size-2 group contributes the
variable when it decoded to 1 and its negation when it decoded to 0; and a
nogood over literals recorded that way forbids exactly the assignments
agreeing with the recording assignment on every recorded variable. -/
theorem literal_polarity :
    (∀ (v : Var → Bool) (xs : List Var) (n : Nat) (l : Lit),
        decodeRep v (RuleRep.onehot xs) = some (n, l) →
          l.2 = true ∧ l.1 ∈ xs ∧ v l.1 = true ∧ xs[n]? = some l.1 ∧
          (xs.countP (fun x => v x) = 1 →
            ∀ j y, xs[j]? = some y → v y = true → j = n)) ∧
    (∀ (v : Var → Bool) (x : Var) (n : Nat) (l : Lit),
        decodeRep v (RuleRep.single x) = some (n, l) →
          l = (x, v x) ∧ n = (if v x = true then 1 else 0)) ∧
    (∀ (s : Finset Lit) (v w : Var → Bool),
        (∀ l ∈ s, evalLit v l = true) →
        ((Formula.notAnd s).eval w = false ↔ ∀ l ∈ s, w l.1 = v l.1)) := by
  refine ⟨?_, ?_, ?_⟩
  · intro v xs n l h
    simp only [decodeRep, Option.map_eq_some'] at h
    obtain ⟨⟨j, z⟩, hj, he⟩ := h
    simp only [Prod.mk.injEq] at he
    obtain ⟨rfl, rfl⟩ := he
    have hspec := firstTrue_spec v xs j z hj
    refine ⟨rfl, List.getElem?_mem hspec.1, hspec.2, hspec.1, ?_⟩
    intro hc k y hk hy
    exact countP_one_unique (fun x => v x) xs hc k j y z hk hspec.1 hy hspec.2
  · intro v x n l h
    simp only [decodeRep, Option.some.injEq, Prod.mk.injEq] at h
    obtain ⟨rfl, rfl⟩ := h
    exact ⟨rfl, by cases hv : v x <;> simp [hv]⟩
  · intro s v w hv
    constructor
    · intro h0 l hl
      have h1 : ¬ ((Formula.notAnd s).eval w = true) := by rw [h0]; simp
      rw [notAnd_eval_true_iff] at h1
      push_neg at h1
      have hwl : evalLit w l = true := by
        have := h1 l hl
        exact Bool.not_eq_false (evalLit w l) ▸ (by simpa using this)
      obtain ⟨x, b⟩ := l
      have h2 := (evalLit_true_iff w x b).mp hwl
      have h3 := (evalLit_true_iff v x b).mp (hv (x, b) hl)
      simp only at h2 h3 ⊢
      rw [h2, h3]
    · intro hag
      by_contra hne
      have h1 : (Formula.notAnd s).eval w = true := by
        cases he : (Formula.notAnd s).eval w
        · exact absurd he hne
        · rfl
      rw [notAnd_eval_true_iff] at h1
      obtain ⟨l, hl, hfalse⟩ := h1
      obtain ⟨x, b⟩ := l
      have h3 := (evalLit_true_iff v x b).mp (hv (x, b) hl)
      have h2 : w x = b := by rw [← h3]; exact hag (x, b) hl
      have htrue : evalLit w (x, b) = true := (evalLit_true_iff w x b).mpr h2
      rw [htrue] at hfalse
      cases hfalse

theorem episodeBody_sets (p : Params) (v : Var → Bool) (st : HState)
    (obs state : Nat) (a : Nat × Nat × Nat) (state' : Nat) (st' : HState)
    (h : episodeBody p v st obs state = some (a, state', st')) :
    ∃ w pend, stepWriteLit p v obs state = some w ∧
      stepPendLits p v obs state = some pend ∧
      nextCtrlState p v obs state = some state' ∧
      st'.dirty_variables = insert w (st.dirty_variables ∪ st.dirty_buffer) ∧
      st'.dirty_buffer = pend := by
  unfold episodeBody at h
  cases hga : get_action p v st obs state with
  | none => rw [hga] at h; exact Option.noConfusion h
  | some apair =>
    rw [hga] at h
    have h1 : (match get_state p v apair.2 obs state with
        | none => none
        | some s => some (apair.1, s.1, s.2)) = some (a, state', st') := h
    cases hgs : get_state p v apair.2 obs state with
    | none => rw [hgs] at h1; exact Option.noConfusion h1
    | some spair =>
      rw [hgs] at h1
      have h2 : some (apair.1, spair.1, spair.2) = some (a, state', st') := h1
      simp only [Option.some.injEq, Prod.mk.injEq] at h2
      obtain ⟨-, hs1, hs2⟩ := h2
      rw [get_action_unfold] at hga
      cases hd : decodeAt p v RuleKind.dir obs state with
      | none => rw [hd] at hga; exact Option.noConfusion hga
      | some dl =>
        rw [hd] at hga
        cases hw : decodeAt p v RuleKind.write obs state with
        | none => rw [hw] at hga; exact Option.noConfusion hga
        | some wl =>
          rw [hw] at hga
          have hga2 : some ((dl.1, if wl.1 = p.n_chars then 0 else 1,
              min wl.1 (p.n_chars - 1)),
              record (record (flushBuffer st) dl.2 true) wl.2 false) = some apair := hga
          simp only [Option.some.injEq] at hga2
          have hwlit : stepWriteLit p v obs state = some wl.2 := by
            unfold stepWriteLit
            rw [hw]
            rfl
          have hdlit : stepDirLit p v obs state = some dl.2 := by
            unfold stepDirLit
            rw [hd]
            rfl
          have hap2 : apair.2 = ⟨insert wl.2 (st.dirty_variables ∪ st.dirty_buffer),
              insert dl.2 ∅⟩ := by
            rw [← hga2]
            rfl
          unfold get_state at hgs
          by_cases hns : p.n_states = 1
          · rw [if_pos hns] at hgs
            have hsp : some ((0 : Nat), apair.2) = some spair := hgs
            simp only [Option.some.injEq] at hsp
            refine ⟨wl.2, {dl.2}, hwlit, ?_, ?_, ?_, ?_⟩
            · unfold stepPendLits
              rw [if_pos hns, hdlit]
              rfl
            · unfold nextCtrlState get_state
              rw [if_pos hns, ← hs1, ← hsp]
              rfl
            · rw [← hs2, ← hsp, hap2]
            · rw [← hs2, ← hsp, hap2]
              rfl
          · rw [if_neg hns] at hgs
            unfold lookupRule at hgs
            cases hsd : decodeAt p v RuleKind.state_ obs state with
            | none => rw [hsd] at hgs; exact Option.noConfusion hgs
            | some sl =>
              rw [hsd] at hgs
              have hsp : some (sl.1, record apair.2 sl.2 true) = some spair := hgs
              simp only [Option.some.injEq] at hsp
              refine ⟨wl.2, {dl.2, sl.2}, hwlit, ?_, ?_, ?_, ?_⟩
              · unfold stepPendLits
                rw [if_neg hns, hdlit, hsd]
              · unfold nextCtrlState get_state
                rw [if_neg hns]
                unfold lookupRule
                rw [hsd, ← hs1, ← hsp]
                rfl
              · rw [← hs2, ← hsp, hap2]
                rfl
              · rw [← hs2, ← hsp, hap2]
                show ({sl.2, dl.2} : Finset Lit) = {dl.2, sl.2}
                exact Finset.pair_comm sl.2 dl.2

theorem specProvenance_single (p : Params) (v : Var → Bool) (obs state : Nat)
    (w : Lit) (pend : Finset Lit) (state' : Nat)
    (hw : stepWriteLit p v obs state = some w)
    (hp : stepPendLits p v obs state = some pend)
    (hn : nextCtrlState p v obs state = some state') :
    specProvenance p v [obs] state = some ({w}, pend) := by
  simp only [specProvenance, hw, hp, hn]

theorem specProvenance_cons2 (p : Params) (v : Var → Bool)
    (obs obs' : Nat) (rest' : List Nat) (state state' : Nat) (w : Lit)
    (pend : Finset Lit) (cp : Finset Lit × Finset Lit)
    (hw : stepWriteLit p v obs state = some w)
    (hp : stepPendLits p v obs state = some pend)
    (hn : nextCtrlState p v obs state = some state')
    (hrec : specProvenance p v (obs' :: rest') state' = some cp) :
    specProvenance p v (obs :: obs' :: rest') state =
      some (insert w (pend ∪ cp.1), cp.2) := by
  rw [specProvenance]
  simp only [hw, hp, hn, hrec]

theorem runObsSteps_spec (p : Params) (v : Var → Bool) :
    ∀ (l : List Nat) (state : Nat) (st : HState) (sf : Nat) (stf : HState),
      runObsSteps p v l state st = some (sf, stf) →
      ∃ C P, specProvenance p v l state = some (C, P) ∧
        ((l = [] ∧ stf = st) ∨
         (l ≠ [] ∧
          stf.dirty_variables = st.dirty_variables ∪ st.dirty_buffer ∪ C ∧
          stf.dirty_buffer = P)) := by
  intro l
  induction l with
  | nil =>
    intro state st sf stf h
    have h2 : some (state, st) = some (sf, stf) := h
    simp only [Option.some.injEq, Prod.mk.injEq] at h2
    exact ⟨∅, ∅, rfl, Or.inl ⟨rfl, h2.2.symm⟩⟩
  | cons obs rest ih =>
    intro state st sf stf h
    rw [runObsSteps] at h
    cases hb : episodeBody p v st obs state with
    | none => rw [hb] at h; exact Option.noConfusion h
    | some trip =>
      obtain ⟨a, state', st1⟩ := trip
      rw [hb] at h
      have h2 : runObsSteps p v rest state' st1 = some (sf, stf) := h
      obtain ⟨w, pend, hw, hp, hn, hd1, hb1⟩ :=
        episodeBody_sets p v st obs state a state' st1 hb
      cases rest with
      | nil =>
        have h3 : some (state', st1) = some (sf, stf) := h2
        simp only [Option.some.injEq, Prod.mk.injEq] at h3
        refine ⟨{w}, pend,
          specProvenance_single p v obs state w pend state' hw hp hn,
          Or.inr ⟨by simp, ?_, ?_⟩⟩
        · rw [← h3.2, hd1]
          ext x
          simp only [Finset.mem_insert, Finset.mem_union, Finset.mem_singleton]
          tauto
        · rw [← h3.2, hb1]
      | cons obs' rest' =>
        obtain ⟨C', P', hspec', hOr⟩ := ih state' st1 sf stf h2
        rcases hOr with ⟨hnil, -⟩ | ⟨-, hd2, hb2⟩
        · exact absurd hnil (by simp)
        · refine ⟨insert w (pend ∪ C'), P',
            specProvenance_cons2 p v obs obs' rest' state state' w pend (C', P')
              hw hp hn hspec', Or.inr ⟨by simp, ?_, ?_⟩⟩
          · rw [hd2, hd1, hb1]
            ext x
            simp only [Finset.mem_insert, Finset.mem_union]
            tauto
          · exact hb2

theorem stepPendLits_card (p : Params) (v : Var → Bool) (obs state : Nat)
    (pend : Finset Lit) (h : stepPendLits p v obs state = some pend) :
    pend.card ≤ 2 := by
  unfold stepPendLits at h
  by_cases hns : p.n_states = 1
  · rw [if_pos hns] at h
    cases hdl : stepDirLit p v obs state with
    | none => rw [hdl] at h; exact Option.noConfusion h
    | some dl =>
      rw [hdl] at h
      have h2 : some ({dl} : Finset Lit) = some pend := h
      simp only [Option.some.injEq] at h2
      rw [← h2]
      simp
  · rw [if_neg hns] at h
    cases hdl : stepDirLit p v obs state with
    | none => rw [hdl] at h; exact Option.noConfusion h
    | some dl =>
      rw [hdl] at h
      cases hsd : decodeAt p v RuleKind.state_ obs state with
      | none => rw [hsd] at h; exact Option.noConfusion h
      | some rl =>
        rw [hsd] at h
        have h2 : some ({dl, rl.2} : Finset Lit) = some pend := h
        simp only [Option.some.injEq] at h2
        rw [← h2]
        exact le_trans (Finset.card_insert_le dl {rl.2}) (by simp)

theorem specProvenance_snd_card (p : Params) (v : Var → Bool) :
    ∀ (l : List Nat) (state : Nat) (C P : Finset Lit),
      specProvenance p v l state = some (C, P) → P.card ≤ 2 := by
  intro l
  induction l with
  | nil =>
    intro state C P h
    have h2 : some ((∅ : Finset Lit), (∅ : Finset Lit)) = some (C, P) := h
    simp only [Option.some.injEq, Prod.mk.injEq] at h2
    rw [← h2.2]
    simp
  | cons obs rest ih =>
    intro state C P h
    rw [specProvenance] at h
    cases hw : stepWriteLit p v obs state with
    | none => rw [hw] at h; exact Option.noConfusion h
    | some w =>
      rw [hw] at h
      cases hp : stepPendLits p v obs state with
      | none => rw [hp] at h; exact Option.noConfusion h
      | some pend =>
        rw [hp] at h
        cases hn : nextCtrlState p v obs state with
        | none => rw [hn] at h; exact Option.noConfusion h
        | some state' =>
          rw [hn] at h
          cases rest with
          | nil =>
            have h2 : some (({w} : Finset Lit), pend) = some (C, P) := h
            simp only [Option.some.injEq, Prod.mk.injEq] at h2
            rw [← h2.2]
            exact stepPendLits_card p v obs state pend hp
          | cons obs' rest' =>
            have h2 : (match specProvenance p v (obs' :: rest') state' with
                | none => none
                | some cp => some (insert w (pend ∪ cp.1), cp.2)) = some (C, P) := h
            cases hrec : specProvenance p v (obs' :: rest') state' with
            | none => rw [hrec] at h2; exact Option.noConfusion h2
            | some cp =>
              rw [hrec] at h2
              have h3 : some (insert w (pend ∪ cp.1), cp.2) = some (C, P) := h2
              simp only [Option.some.injEq, Prod.mk.injEq] at h3
              rw [← h3.2]
              exact ih state' cp.1 cp.2 (by rw [hrec])

theorem specProvenance_fst_nonempty (p : Params) (v : Var → Bool)
    (obs : Nat) (rest : List Nat) (state : Nat) (C P : Finset Lit)
    (h : specProvenance p v (obs :: rest) state = some (C, P)) : C ≠ ∅ := by
  rw [specProvenance] at h
  cases hw : stepWriteLit p v obs state with
  | none => rw [hw] at h; exact Option.noConfusion h
  | some w =>
    rw [hw] at h
    cases hp : stepPendLits p v obs state with
    | none => rw [hp] at h; exact Option.noConfusion h
    | some pend =>
      rw [hp] at h
      cases hn : nextCtrlState p v obs state with
      | none => rw [hn] at h; exact Option.noConfusion h
      | some state' =>
        rw [hn] at h
        cases rest with
        | nil =>
          have h2 : some (({w} : Finset Lit), pend) = some (C, P) := h
          simp only [Option.some.injEq, Prod.mk.injEq] at h2
          rw [← h2.1]
          exact Finset.singleton_ne_empty w
        | cons obs' rest' =>
          have h2 : (match specProvenance p v (obs' :: rest') state' with
              | none => none
              | some cp => some (insert w (pend ∪ cp.1), cp.2)) = some (C, P) := h
          cases hrec : specProvenance p v (obs' :: rest') state' with
          | none => rw [hrec] at h2; exact Option.noConfusion h2
          | some cp =>
            rw [hrec] at h2
            have h3 : some (insert w (pend ∪ cp.1), cp.2) = some (C, P) := h2
            simp only [Option.some.injEq, Prod.mk.injEq] at h3
            rw [← h3.1]
            exact Finset.insert_ne_empty w (pend ∪ cp.1)

theorem runEpisodeLoop_trace (p : Params) (v : Var → Bool) {E : Type}
    (env : EnvModel E) :
    ∀ (fuel : Nat) (e : E) (obs state : Nat) (st : HState) (total : ℚ)
      (b : Bool) (tot : ℚ) (stf : HState) (ef : E),
      runEpisodeLoop p v env fuel e obs state st total = some (b, tot, stf, ef) →
      ∃ l sf, episodeTraceLoop p v env fuel e obs state st = some l ∧ l ≠ [] ∧
        runObsSteps p v l state st = some (sf, stf) := by
  intro fuel
  induction fuel with
  | zero => intro e obs state st total b tot stf ef h; exact Option.noConfusion h
  | succ n ih =>
    intro e obs state st total b tot stf ef h
    rw [runEpisodeLoop] at h
    cases hbody : episodeBody p v st obs state with
    | none => rw [hbody] at h; exact Option.noConfusion h
    | some trip =>
      obtain ⟨a, state', st'⟩ := trip
      rw [hbody] at h
      have h1 : (match env.step e a with
          | (e', obs', r, done) =>
            if done = true then some (decide (0 < r), total + r, st', e')
            else runEpisodeLoop p v env n e' obs' state' st' (total + r)) =
          some (b, tot, stf, ef) := h
      have hgoal : episodeTraceLoop p v env (n + 1) e obs state st =
          (match env.step e a with
            | (e', obs', _, done) =>
              if done = true then some [obs]
              else (episodeTraceLoop p v env n e' obs' state' st').map
                (fun l => obs :: l)) := by
        rw [episodeTraceLoop, hbody]
      rcases hstep : env.step e a with ⟨e', obs', r, done⟩
      rw [hstep] at h1 hgoal
      have h2 : (if done = true then some (decide (0 < r), total + r, st', e')
          else runEpisodeLoop p v env n e' obs' state' st' (total + r)) =
          some (b, tot, stf, ef) := h1
      have hgoal2 : episodeTraceLoop p v env (n + 1) e obs state st =
          (if done = true then some [obs]
           else (episodeTraceLoop p v env n e' obs' state' st').map
             (fun l => obs :: l)) := hgoal
      by_cases hdone : done = true
      · rw [if_pos hdone] at h2 hgoal2
        have h3 : some (decide (0 < r), total + r, st', e') = some (b, tot, stf, ef) := h2
        simp only [Option.some.injEq, Prod.mk.injEq] at h3
        refine ⟨[obs], state', hgoal2, by simp, ?_⟩
        rw [runObsSteps, hbody]
        show runObsSteps p v [] state' st' = some (state', stf)
        show some (state', st') = some (state', stf)
        rw [h3.2.2.1]
      · rw [if_neg hdone] at h2 hgoal2
        obtain ⟨l, sf, htr, hne, hobs⟩ :=
          ih e' obs' state' st' (total + r) b tot stf ef h2
        refine ⟨obs :: l, sf, ?_, by simp, ?_⟩
        · rw [hgoal2, htr]
          rfl
        · rw [runObsSteps, hbody]
          show runObsSteps p v l state' st' = some (sf, stf)
          exact hobs

theorem run_episode_trace (p : Params) (v : Var → Bool) {E : Type}
    (env : EnvModel E) (epFuel : Nat) (e : E) (st : HState) (b : Bool)
    (tot : ℚ) (stf : HState) (ef : E)
    (h : run_episode p v env epFuel e st = some (b, tot, stf, ef)) :
    ∃ l sf, episodeTrace p v env epFuel e st = some l ∧ l ≠ [] ∧
      runObsSteps p v l 0 st = some (sf, stf) := by
  unfold run_episode at h
  unfold episodeTrace
  rcases hr : env.reset e with ⟨e1, obs0⟩
  rw [hr] at h
  exact runEpisodeLoop_trace p v env epFuel e1 obs0 0 st 0 b tot stf ef h

/-- Claim C2: for an episode that fails at step k under a fixed candidate,
the provenance at the moment resolve builds the nogood consists of exactly
the committed write-decision literals of steps 1..k together with the
direction and next-state decision literals of steps 1..k-1 (the first
component of specProvenance over the episode's observation trace), while
step k's direction and next-state decisions sit in the pending buffer and
are excluded from the asserted clause. -/
theorem failed_episode_nogood (p : Params) (v : Var → Bool) {E : Type}
    (env : EnvModel E) (epFuel : Nat) (e : E)
    (B : List Formula → Option (Var → Bool)) (A : List Formula)
    (tot : ℚ) (stf : HState) (ef : E)
    (h : run_episode p v env epFuel e ⟨∅, ∅⟩ = some (false, tot, stf, ef)) :
    ∃ l C P, episodeTrace p v env epFuel e ⟨∅, ∅⟩ = some l ∧ l ≠ [] ∧
      specProvenance p v l 0 = some (C, P) ∧
      stf.dirty_variables = C ∧ stf.dirty_buffer = P ∧ C ≠ ∅ ∧
      (resolve B A stf).1.1 = A ++ [Formula.notAnd C] := by
  obtain ⟨l, sf, htr, hne, hobs⟩ :=
    run_episode_trace p v env epFuel e ⟨∅, ∅⟩ false tot stf ef h
  obtain ⟨C, P, hspec, hOr⟩ := runObsSteps_spec p v l 0 ⟨∅, ∅⟩ sf stf hobs
  rcases hOr with ⟨hnil, -⟩ | ⟨-, hd, hb⟩
  · exact absurd hnil hne
  · have hdC : stf.dirty_variables = C := by
      rw [hd]
      show ∅ ∪ ∅ ∪ C = C
      simp
    have hCne : C ≠ ∅ := by
      cases l with
      | nil => exact absurd rfl hne
      | cons o r => exact specProvenance_fst_nonempty p v o r 0 C P hspec
    refine ⟨l, C, P, htr, hne, hspec, hdC, hb, hCne, ?_⟩
    show A ++ nogoodAssertions stf = _
    rw [nogoodAssertions, hdC, if_neg hCne]

/-- Witness for C2 at a concrete input: a one-step failing episode on
envFail, whose nogood holds exactly the committed write literal while the
buffered direction literal is excluded. -/
theorem failed_episode_nogood_witness :
    run_episode pX vX envFail 1 () ⟨∅, ∅⟩ = some (false, -1, stX, ()) ∧
    (∃ l C P, episodeTrace pX vX envFail 1 () ⟨∅, ∅⟩ = some l ∧ l ≠ [] ∧
      specProvenance pX vX l 0 = some (C, P) ∧
      stX.dirty_variables = C ∧ stX.dirty_buffer = P ∧ C ≠ ∅ ∧
      (resolve bNone [] stX).1.1 = [] ++ [Formula.notAnd C]) := by
  have hrun : run_episode pX vX envFail 1 () ⟨∅, ∅⟩ = some (false, -1, stX, ()) := by
    norm_num [run_episode, runEpisodeLoop, episodeBody, get_action, get_state,
      lookupRule, decodeAt, getRule, decodeRep, ruleRep, record, flushBuffer,
      envFail, pX, vX, stX, kindDomain]
  exact ⟨hrun, failed_episode_nogood pX vX envFail 1 () bNone [] (-1) stX () hrun⟩

/-- Claim C8: the pending buffer never holds more than one outstanding
decision pair -- after any step it is exactly that step's direction and
next-state literal set (at most two literals), flushed into the committed
set at the start of the next get_action -- and an episode discarded as a
non-final qualifying success contributes nothing to a later nogood:
clear_dirty empties both sets and the evaluation loop hands the emptied
state to the next episode. -/
theorem buffer_and_discard_invariant (p : Params) (v : Var → Bool) {E : Type}
    (env : EnvModel E) (epFuel : Nat) :
    (∀ st : HState, clear_dirty st = ⟨∅, ∅⟩) ∧
    (∀ (rem : Nat) (e : E) (st : HState) (g : Nat) (lastR : Option ℚ)
       (r : ℚ) (st' : HState) (e' : E),
       run_episode p v env epFuel e st = some (true, r, st', e') →
       ¬ env.reward_threshold ≤ r →
       tryModelLoop p v env epFuel (rem + 1) e st g lastR =
         tryModelLoop p v env epFuel rem e' ⟨∅, ∅⟩ (g + 1) (some r)) ∧
    (∀ (st : HState) (obs state : Nat) (a : Nat × Nat × Nat) (state' : Nat)
       (st2 : HState),
       episodeBody p v st obs state = some (a, state', st2) →
       ∃ pend, stepPendLits p v obs state = some pend ∧
         st2.dirty_buffer = pend ∧ pend.card ≤ 2) ∧
    (∀ (l : List Nat) (state sf : Nat) (stf : HState),
       runObsSteps p v l state ⟨∅, ∅⟩ = some (sf, stf) →
       ∃ C P, specProvenance p v l state = some (C, P) ∧
         stf.dirty_buffer = P ∧ P.card ≤ 2) := by
  refine ⟨fun st => rfl, ?_, ?_, ?_⟩
  · intro rem e st g lastR r st' e' hrun hlt
    have h1 : tryModelLoop p v env epFuel (rem + 1) e st g lastR =
        (if (true : Bool) = true then
          (if env.reward_threshold ≤ r then
            some (decide (env.reward_threshold ≤ r), r, g + 1, st', e')
           else tryModelLoop p v env epFuel rem e' (clear_dirty st') (g + 1) (some r))
         else some (decide (env.reward_threshold ≤ r), r, g, st', e')) := by
      rw [tryModelLoop, hrun]
    rw [h1, if_pos rfl, if_neg hlt]
    rfl
  · intro st obs state a state' st2 hbody
    obtain ⟨w, pend, hw, hp, hn, hd1, hb1⟩ :=
      episodeBody_sets p v st obs state a state' st2 hbody
    exact ⟨pend, hp, hb1, stepPendLits_card p v obs state pend hp⟩
  · intro l state sf stf h
    obtain ⟨C, P, hspec, hOr⟩ := runObsSteps_spec p v l state ⟨∅, ∅⟩ sf stf h
    refine ⟨C, P, hspec, ?_, specProvenance_snd_card p v l state C P hspec⟩
    rcases hOr with ⟨hnil, hst⟩ | ⟨-, -, hb⟩
    · subst hnil
      have h2 : some ((∅ : Finset Lit), (∅ : Finset Lit)) = some (C, P) := hspec
      simp only [Option.some.injEq, Prod.mk.injEq] at h2
      rw [hst, ← h2.2]
    · exact hb

/-- Witness for C8 at a concrete input: a qualifying-but-below-threshold
episode on envLow, after which the loop hands the cleared state to the next
episode. -/
theorem buffer_and_discard_witness :
    run_episode pX vX envLow 1 () ⟨∅, ∅⟩ = some (true, 1, stX, ()) ∧
    ¬ envLow.reward_threshold ≤ (1 : ℚ) ∧
    tryModelLoop pX vX envLow 1 (0 + 1) () ⟨∅, ∅⟩ 0 none =
      tryModelLoop pX vX envLow 1 0 () ⟨∅, ∅⟩ (0 + 1) (some 1) := by
  have hrun : run_episode pX vX envLow 1 () ⟨∅, ∅⟩ = some (true, 1, stX, ()) := by
    norm_num [run_episode, runEpisodeLoop, episodeBody, get_action, get_state,
      lookupRule, decodeAt, getRule, decodeRep, ruleRep, record, flushBuffer,
      envLow, pX, vX, stX, kindDomain]
  have hlt : ¬ envLow.reward_threshold ≤ (1 : ℚ) := by norm_num [envLow]
  exact ⟨hrun, hlt,
    (buffer_and_discard_invariant pX vX envLow 1).2.1 0 () ⟨∅, ∅⟩ 0 none 1 stX ()
      hrun hlt⟩

theorem tryModelLoop_b (p : Params) (v : Var → Bool) {E : Type}
    (env : EnvModel E) (epFuel : Nat) :
    ∀ (rem : Nat) (e : E) (st : HState) (g : Nat) (lastR : Option ℚ)
      (b : Bool) (r : ℚ) (g' : Nat) (st' : HState) (e' : E),
      tryModelLoop p v env epFuel rem e st g lastR = some (b, r, g', st', e') →
      b = decide (env.reward_threshold ≤ r) := by
  intro rem
  induction rem with
  | zero =>
    intro e st g lastR b r g' st' e' h
    cases lastR with
    | none => exact Option.noConfusion h
    | some r0 =>
      have h2 : some (decide (env.reward_threshold ≤ r0), r0, g, st, e) =
          some (b, r, g', st', e') := h
      simp only [Option.some.injEq, Prod.mk.injEq] at h2
      rw [← h2.1, h2.2.1]
  | succ n ih =>
    intro e st g lastR b r g' st' e' h
    rw [tryModelLoop] at h
    cases hrun : run_episode p v env epFuel e st with
    | none => rw [hrun] at h; exact Option.noConfusion h
    | some res =>
      obtain ⟨succ, r0, st0, e0⟩ := res
      rw [hrun] at h
      have h1 : (if succ = true then
          (if env.reward_threshold ≤ r0 then
            some (decide (env.reward_threshold ≤ r0), r0, g + 1, st0, e0)
           else tryModelLoop p v env epFuel n e0 (clear_dirty st0) (g + 1) (some r0))
         else some (decide (env.reward_threshold ≤ r0), r0, g, st0, e0)) =
          some (b, r, g', st', e') := h
      by_cases hs : succ = true
      · rw [if_pos hs] at h1
        by_cases hth : env.reward_threshold ≤ r0
        · rw [if_pos hth] at h1
          simp only [Option.some.injEq, Prod.mk.injEq] at h1
          rw [← h1.1, h1.2.1]
        · rw [if_neg hth] at h1
          exact ih e0 (clear_dirty st0) (g + 1) (some r0) b r g' st' e' h1
      · rw [if_neg hs] at h1
        simp only [Option.some.injEq, Prod.mk.injEq] at h1
        rw [← h1.1, h1.2.1]

theorem runEpisodeLoop_trials_agnostic (p : Params) (v : Var → Bool) {E : Type}
    (reset : E → E × Nat) (stepf : E → Nat × Nat × Nat → E × Nat × ℚ × Bool)
    (thr : ℚ) (t1 t2 : Nat) :
    ∀ (fuel : Nat) (e : E) (obs state : Nat) (st : HState) (total : ℚ),
      runEpisodeLoop p v (⟨reset, stepf, thr, t1⟩ : EnvModel E) fuel e obs state st total =
      runEpisodeLoop p v (⟨reset, stepf, thr, t2⟩ : EnvModel E) fuel e obs state st total := by
  intro fuel
  induction fuel with
  | zero => intro e obs state st total; rfl
  | succ n ih =>
    intro e obs state st total
    rw [runEpisodeLoop, runEpisodeLoop]
    cases episodeBody p v st obs state with
    | none => rfl
    | some trip =>
      obtain ⟨a, state', st'⟩ := trip
      show (match stepf e a with
          | (e', obs', r, done) =>
            if done = true then some (decide (0 < r), total + r, st', e')
            else runEpisodeLoop p v (⟨reset, stepf, thr, t1⟩ : EnvModel E) n
              e' obs' state' st' (total + r)) =
        (match stepf e a with
          | (e', obs', r, done) =>
            if done = true then some (decide (0 < r), total + r, st', e')
            else runEpisodeLoop p v (⟨reset, stepf, thr, t2⟩ : EnvModel E) n
              e' obs' state' st' (total + r))
      rcases stepf e a with ⟨e', obs', r, done⟩
      show (if done = true then some (decide (0 < r), total + r, st', e')
          else runEpisodeLoop p v (⟨reset, stepf, thr, t1⟩ : EnvModel E) n
            e' obs' state' st' (total + r)) =
        (if done = true then some (decide (0 < r), total + r, st', e')
          else runEpisodeLoop p v (⟨reset, stepf, thr, t2⟩ : EnvModel E) n
            e' obs' state' st' (total + r))
      by_cases hd : done = true
      · rw [if_pos hd, if_pos hd]
      · rw [if_neg hd, if_neg hd]
        exact ih e' obs' state' st' (total + r)

theorem run_episode_trials_agnostic (p : Params) (v : Var → Bool) {E : Type}
    (reset : E → E × Nat) (stepf : E → Nat × Nat × Nat → E × Nat × ℚ × Bool)
    (thr : ℚ) (t1 t2 : Nat) (epFuel : Nat) (e : E) (st : HState) :
    run_episode p v (⟨reset, stepf, thr, t1⟩ : EnvModel E) epFuel e st =
    run_episode p v (⟨reset, stepf, thr, t2⟩ : EnvModel E) epFuel e st := by
  unfold run_episode
  show (match reset e with
      | (e1, obs0) => runEpisodeLoop p v (⟨reset, stepf, thr, t1⟩ : EnvModel E)
          epFuel e1 obs0 0 st 0) =
    (match reset e with
      | (e1, obs0) => runEpisodeLoop p v (⟨reset, stepf, thr, t2⟩ : EnvModel E)
          epFuel e1 obs0 0 st 0)
  rcases reset e with ⟨e1, obs0⟩
  exact runEpisodeLoop_trials_agnostic p v reset stepf thr t1 t2 epFuel e1 obs0 0 st 0

theorem tryModelLoop_trials_agnostic (p : Params) (v : Var → Bool) {E : Type}
    (reset : E → E × Nat) (stepf : E → Nat × Nat × Nat → E × Nat × ℚ × Bool)
    (thr : ℚ) (t1 t2 : Nat) (epFuel : Nat) :
    ∀ (rem : Nat) (e : E) (st : HState) (g : Nat) (lastR : Option ℚ),
      tryModelLoop p v (⟨reset, stepf, thr, t1⟩ : EnvModel E) epFuel rem e st g lastR =
      tryModelLoop p v (⟨reset, stepf, thr, t2⟩ : EnvModel E) epFuel rem e st g lastR := by
  intro rem
  induction rem with
  | zero => intro e st g lastR; rfl
  | succ n ih =>
    intro e st g lastR
    rw [tryModelLoop, tryModelLoop,
      run_episode_trials_agnostic p v reset stepf thr t1 t2 epFuel e st]
    cases run_episode p v (⟨reset, stepf, thr, t2⟩ : EnvModel E) epFuel e st with
    | none => rfl
    | some res =>
      obtain ⟨succ, r, st', e'⟩ := res
      show (if succ = true then
          (if thr ≤ r then some (decide (thr ≤ r), r, g + 1, st', e')
           else tryModelLoop p v (⟨reset, stepf, thr, t1⟩ : EnvModel E) epFuel n
             e' (clear_dirty st') (g + 1) (some r))
         else some (decide (thr ≤ r), r, g, st', e')) =
        (if succ = true then
          (if thr ≤ r then some (decide (thr ≤ r), r, g + 1, st', e')
           else tryModelLoop p v (⟨reset, stepf, thr, t2⟩ : EnvModel E) epFuel n
             e' (clear_dirty st') (g + 1) (some r))
         else some (decide (thr ≤ r), r, g, st', e'))
      by_cases hs : succ = true
      · rw [if_pos hs, if_pos hs]
        by_cases hth : thr ≤ r
        · rw [if_pos hth, if_pos hth]
        · rw [if_neg hth, if_neg hth]
          exact ih e' (clear_dirty st') (g + 1) (some r)
      · rw [if_neg hs, if_neg hs]

/-- Claim C1 (amended): try_model never consults the task's trials count
(its result is invariant under changing it), and it declares success
exactly when the episode at which its loop stops -- the first failing or
threshold-reaching episode, or the max_eps-th -- has total reward at or
above reward_threshold.  In particular one threshold-reaching episode
suffices, regardless of trials. -/
theorem try_model_success_condition (p : Params) (v : Var → Bool) {E : Type}
    (reset : E → E × Nat) (stepf : E → Nat × Nat × Nat → E × Nat × ℚ × Bool)
    (thr : ℚ) (t1 t2 : Nat) (epFuel max_eps : Nat) (e : E) (st : HState) :
    try_model p v (⟨reset, stepf, thr, t1⟩ : EnvModel E) epFuel max_eps e st =
      try_model p v (⟨reset, stepf, thr, t2⟩ : EnvModel E) epFuel max_eps e st ∧
    (∀ (b : Bool) (r : ℚ) (g : Nat) (st' : HState) (e' : E),
      try_model p v (⟨reset, stepf, thr, t1⟩ : EnvModel E) epFuel max_eps e st =
        some (b, r, g, st', e') →
      (b = true ↔ thr ≤ r)) := by
  constructor
  · exact tryModelLoop_trials_agnostic p v reset stepf thr t1 t2 epFuel max_eps e st 0 none
  · intro b r g st' e' h
    have hb := tryModelLoop_b p v (⟨reset, stepf, thr, t1⟩ : EnvModel E) epFuel
      max_eps e st 0 none b r g st' e' h
    rw [hb]
    exact decide_eq_true_iff

theorem tryModel_envWin_eval :
    try_model pX vX envWin 1 5 () ⟨∅, ∅⟩ = some (true, 30, 1, stX, ()) := by
  have hrun : run_episode pX vX envWin 1 () ⟨∅, ∅⟩ = some (true, 30, stX, ()) := by
    norm_num [run_episode, runEpisodeLoop, episodeBody, get_action, get_state,
      lookupRule, decodeAt, getRule, decodeRep, ruleRep, record, flushBuffer,
      envWin, pX, vX, stX, kindDomain]
  show tryModelLoop pX vX envWin 1 5 () ⟨∅, ∅⟩ 0 none = some (true, 30, 1, stX, ())
  rw [tryModelLoop, hrun]
  have hth : envWin.reward_threshold ≤ (30 : ℚ) := by norm_num [envWin]
  have h1 : (if (true : Bool) = true then
      (if envWin.reward_threshold ≤ (30 : ℚ) then
        some (decide (envWin.reward_threshold ≤ (30 : ℚ)), (30 : ℚ), 0 + 1, stX, ())
       else tryModelLoop pX vX envWin 1 4 () (clear_dirty stX) (0 + 1) (some 30))
     else some (decide (envWin.reward_threshold ≤ (30 : ℚ)), (30 : ℚ), 0, stX, ())) =
      some (true, 30, 1, stX, ()) := by
    rw [if_pos rfl, if_pos hth]
    simp [hth]
  exact h1

/-- Claim C1 is false as stated: on envWin, whose registration spec sets
trials = 2, try_model declares success after one single qualifying episode
(goodeps = 1 < trials). -/
theorem trials_ignored_counterexample :
    try_model pX vX envWin 1 5 () ⟨∅, ∅⟩ = some (true, 30, 1, stX, ()) ∧
    envWin.trials = 2 ∧ (1 : Nat) < 2 :=
  ⟨tryModel_envWin_eval, rfl, by decide⟩

/-- Witness for the amended C1 at a concrete input. -/
theorem try_model_success_witness :
    try_model pX vX envWin 1 5 () ⟨∅, ∅⟩ = some (true, 30, 1, stX, ()) ∧
    (true = true ↔ envWin.reward_threshold ≤ (30 : ℚ)) :=
  ⟨tryModel_envWin_eval,
   (try_model_success_condition pX vX envWin.reset envWin.step
      envWin.reward_threshold envWin.trials 2 1 5 () ⟨∅, ∅⟩).2 true 30 1 stX ()
     tryModel_envWin_eval⟩

theorem mem_keysList (p : Params) (s o : Nat) :
    (s, o) ∈ keysList p ↔ s < p.n_states ∧ o < p.n_chars + 1 := by
  simp [keysList]

theorem exactlyOne_mem_constraintsFor (p : Params) (k : RuleKind)
    (h3 : 3 ≤ kindDomain p k) (s o : Nat) (hs : s < p.n_states)
    (ho : o < p.n_chars + 1) :
    Formula.exactlyOne (groupVars k s o (kindDomain p k)) ∈ constraintsFor p k := by
  unfold constraintsFor
  rw [if_neg (by omega), if_neg (by omega), List.mem_map]
  exact ⟨(s, o), (mem_keysList p s o).mpr ⟨hs, ho⟩, rfl⟩

theorem exactlyOne_mem_base (p : Params) (k : RuleKind)
    (h3 : 3 ≤ kindDomain p k) (s o : Nat) (hs : s < p.n_states)
    (ho : o < p.n_chars + 1) :
    Formula.exactlyOne (groupVars k s o (kindDomain p k)) ∈ add_base_constraints p := by
  have hm := exactlyOne_mem_constraintsFor p k h3 s o hs ho
  unfold add_base_constraints
  cases k with
  | dir => exact List.mem_append_left _ (List.mem_append_left _ hm)
  | write => exact List.mem_append_left _ (List.mem_append_right _ hm)
  | state_ => exact List.mem_append_right _ hm

/-- Claim C7: at construction every decision group over a domain larger
than 2 registers an exactly-one-true cardinality constraint (one per rules
key) while size-2 groups register none; consequently, under any assignment
satisfying the registered constraints, exactly one member of each one-hot
group is true and the decode is deterministic: it returns the unique true
member. -/
theorem onehot_cardinality (p : Params) :
    (∀ k, 3 ≤ kindDomain p k → ∀ s o, s < p.n_states → o < p.n_chars + 1 →
        Formula.exactlyOne (groupVars k s o (kindDomain p k)) ∈ add_base_constraints p) ∧
    (∀ k, kindDomain p k = 2 → constraintsFor p k = []) ∧
    (∀ v, satisfies v (add_base_constraints p) →
      ∀ k s o, 3 ≤ kindDomain p k → s < p.n_states → o < p.n_chars + 1 →
        getRule p k s o = some (RuleRep.onehot (groupVars k s o (kindDomain p k))) ∧
        (groupVars k s o (kindDomain p k)).countP (fun x => v x) = 1 ∧
        ∃ n x, decodeRep v (RuleRep.onehot (groupVars k s o (kindDomain p k))) =
            some (n, (x, true)) ∧
          (groupVars k s o (kindDomain p k))[n]? = some x ∧ v x = true ∧
          ∀ j y, (groupVars k s o (kindDomain p k))[j]? = some y → v y = true → j = n) := by
  refine ⟨fun k h3 s o hs ho => exactlyOne_mem_base p k h3 s o hs ho, ?_, ?_⟩
  · intro k h2
    unfold constraintsFor
    rw [if_neg (by omega), if_pos h2]
  · intro v hv k s o h3 hs ho
    have hg : getRule p k s o =
        some (RuleRep.onehot (groupVars k s o (kindDomain p k))) := by
      unfold getRule
      rw [if_pos ⟨hs, ho⟩]
      unfold ruleRep
      rw [if_neg (by omega), if_pos (by omega)]
    have heval := hv _ (exactlyOne_mem_base p k h3 s o hs ho)
    have hbeq : ((groupVars k s o (kindDomain p k)).countP (fun x => v x) == 1) = true :=
      heval
    have hcount : (groupVars k s o (kindDomain p k)).countP (fun x => v x) = 1 :=
      beq_iff_eq.mp hbeq
    exact ⟨hg, hcount, decode_onehot_of_countP_one v _ hcount⟩

/-- Witness for C7 at a concrete input: the one-hot write table of p7
under the assignment v7 satisfying the base constraints. -/
theorem onehot_cardinality_witness :
    3 ≤ kindDomain p7 RuleKind.write ∧
    satisfies v7 (add_base_constraints p7) ∧
    (0 : Nat) < p7.n_states ∧ (0 : Nat) < p7.n_chars + 1 ∧
    (groupVars RuleKind.write 0 0 (kindDomain p7 RuleKind.write)).countP
      (fun x => v7 x) = 1 :=
  ⟨by decide, by unfold satisfies; decide, by decide, by decide,
   ((onehot_cardinality p7).2.2 v7 (by unfold satisfies; decide) RuleKind.write 0 0
      (by decide) (by decide) (by decide)).2.1⟩

theorem solveAux_step (p : Params) (B : List Formula → Option (Var → Bool))
    {E : Type} (env : EnvModel E) (epFuel max_eps : Nat) (maxiters : Option Nat)
    (fuel i : Nat) (A : List Formula) (st : HState) (e : E) :
    solveAux p B env epFuel max_eps maxiters (fuel + 1) i A st e =
      (if budgetLeft maxiters i then
        match B (A ++ nogoodAssertions st) with
        | none => some (Outcome.exhausted, A ++ nogoodAssertions st)
        | some v =>
          match try_model p v env epFuel max_eps e ⟨∅, ∅⟩ with
          | none => none
          | some (b, _, _, st'', e'') =>
            if b then some (Outcome.succeeded, A ++ nogoodAssertions st)
            else solveAux p B env epFuel max_eps maxiters fuel (i + 1)
                   (A ++ nogoodAssertions st) st'' e''
      else some (Outcome.aborted, A)) := by
  rw [solveAux]
  by_cases hb : budgetLeft maxiters i = true
  · rw [if_pos hb, if_pos hb]
    simp only [resolve]
    cases B (A ++ nogoodAssertions st) with
    | none => rfl
    | some v => rfl
  · rw [if_neg hb, if_neg hb]

theorem solveAux_extends (p : Params) (B : List Formula → Option (Var → Bool))
    {E : Type} (env : EnvModel E) (epFuel max_eps : Nat) (maxiters : Option Nat) :
    ∀ (fuel i : Nat) (A : List Formula) (st : HState) (e : E) (out : Outcome)
      (Afin : List Formula),
      solveAux p B env epFuel max_eps maxiters fuel i A st e = some (out, Afin) →
      ∃ t, Afin = A ++ t := by
  intro fuel
  induction fuel with
  | zero => intro i A st e out Afin h; exact Option.noConfusion h
  | succ n ih =>
    intro i A st e out Afin h
    rw [solveAux_step] at h
    by_cases hb : budgetLeft maxiters i = true
    · rw [if_pos hb] at h
      cases hB : B (A ++ nogoodAssertions st) with
      | none =>
        rw [hB] at h
        have h2 : some (Outcome.exhausted, A ++ nogoodAssertions st) = some (out, Afin) := h
        simp only [Option.some.injEq, Prod.mk.injEq] at h2
        exact ⟨nogoodAssertions st, h2.2.symm⟩
      | some v =>
        rw [hB] at h
        have h1 : (match try_model p v env epFuel max_eps e ⟨∅, ∅⟩ with
            | none => none
            | some (b, _, _, st'', e'') =>
              if b = true then some (Outcome.succeeded, A ++ nogoodAssertions st)
              else solveAux p B env epFuel max_eps maxiters n (i + 1)
                (A ++ nogoodAssertions st) st'' e'') = some (out, Afin) := h
        cases hT : try_model p v env epFuel max_eps e ⟨∅, ∅⟩ with
        | none => rw [hT] at h1; exact Option.noConfusion h1
        | some res =>
          obtain ⟨b, r, g, st'', e''⟩ := res
          rw [hT] at h1
          have h2 : (if b = true then some (Outcome.succeeded, A ++ nogoodAssertions st)
              else solveAux p B env epFuel max_eps maxiters n (i + 1)
                (A ++ nogoodAssertions st) st'' e'') = some (out, Afin) := h1
          by_cases hbb : b = true
          · rw [if_pos hbb] at h2
            simp only [Option.some.injEq, Prod.mk.injEq] at h2
            exact ⟨nogoodAssertions st, h2.2.symm⟩
          · rw [if_neg hbb] at h2
            obtain ⟨t, ht⟩ := ih (i + 1) (A ++ nogoodAssertions st) st'' e'' out Afin h2
            exact ⟨nogoodAssertions st ++ t, by rw [ht, List.append_assoc]⟩
    · rw [if_neg hb] at h
      have h2 : some (Outcome.aborted, A) = some (out, Afin) := h
      simp only [Option.some.injEq, Prod.mk.injEq] at h2
      exact ⟨[], by rw [← h2.2, List.append_nil]⟩

/-- Claim C3: the clause resolve asserts after a failure is the negation of
the conjunction of the provenance literals, satisfied exactly when at least
one of them differs from its recorded polarity; once asserted it remains in
the session's assertion list through every further refinement iteration, so
every later satisfying assignment must break the recorded combination. -/
theorem nogood_assertion_semantics (B : List Formula → Option (Var → Bool))
    (A : List Formula) (st : HState) (h : st.dirty_variables ≠ ∅) :
    (resolve B A st).1.1 = A ++ [Formula.notAnd st.dirty_variables] ∧
    (∀ w, (Formula.notAnd st.dirty_variables).eval w = true ↔
      ∃ l ∈ st.dirty_variables, evalLit w l = false) ∧
    (∀ {E : Type} (p : Params) (env : EnvModel E) (epFuel max_eps : Nat)
       (maxiters : Option Nat) (fuel i : Nat) (st1 : HState) (e : E)
       (out : Outcome) (Afin : List Formula),
       solveAux p B env epFuel max_eps maxiters fuel i
           (A ++ [Formula.notAnd st.dirty_variables]) st1 e = some (out, Afin) →
       Formula.notAnd st.dirty_variables ∈ Afin ∧
       ∀ w, satisfies w Afin → ∃ l ∈ st.dirty_variables, evalLit w l = false) := by
  refine ⟨?_, fun w => notAnd_eval_true_iff _ w, ?_⟩
  · show (A ++ nogoodAssertions st) = _
    rw [nogoodAssertions, if_neg h]
  · intro E p env epFuel max_eps maxiters fuel i st1 e out Afin hrun
    obtain ⟨t, rfl⟩ :=
      solveAux_extends p B env epFuel max_eps maxiters fuel i _ st1 e out Afin hrun
    have hmem : Formula.notAnd st.dirty_variables ∈
        A ++ [Formula.notAnd st.dirty_variables] ++ t := by simp
    refine ⟨hmem, fun w hw => ?_⟩
    exact (notAnd_eval_true_iff _ w).mp (hw _ hmem)

/-- Witness for C3 at a concrete input: a singleton provenance set. -/
theorem nogood_assertion_semantics_witness :
    ({(Var.single RuleKind.write 0 0, false)} : Finset Lit) ≠ ∅ ∧
    (resolve bNone []
        ⟨{(Var.single RuleKind.write 0 0, false)}, ∅⟩).1.1 =
      [] ++ [Formula.notAnd {(Var.single RuleKind.write 0 0, false)}] :=
  ⟨by decide,
   (nogood_assertion_semantics bNone []
      ⟨{(Var.single RuleKind.write 0 0, false)}, ∅⟩ (by decide)).1⟩

/-- Claim C5 (amended): when the iteration budget runs out the loop does
terminate, but in the aborted outcome solve returns the same False that the
exhausted outcome produces, so the caller cannot tell the two apart from
the returned value. -/
theorem budget_exhaustion_aborts (p : Params)
    (B : List Formula → Option (Var → Bool)) {E : Type} (env : EnvModel E)
    (epFuel max_eps m fuel i : Nat) (A : List Formula) (st : HState) (e : E)
    (h : ¬ i < m) :
    solveAux p B env epFuel max_eps (some m) (fuel + 1) i A st e =
      some (Outcome.aborted, A) ∧
    outcomeBool Outcome.aborted = false ∧
    outcomeBool Outcome.exhausted = false := by
  refine ⟨?_, rfl, rfl⟩
  rw [solveAux_step]
  have hb : budgetLeft (some m) i = false := by simp [budgetLeft, h]
  rw [hb]
  rfl

/-- Claim C5 is false as stated: the returned values of a budget-exhausted
run and of an unsatisfiable (exhausted) run coincide (both are False), so
the aborted outcome is not distinguishable by the caller. -/
theorem budget_vs_exhausted_counterexample :
    solve pX bNone envFail 1 5 none 1 () = some false ∧
    solve pX bNone envFail 1 5 (some 0) 1 () = some false :=
  ⟨by decide, by decide⟩

/-- Witness for the amended C5 at a concrete input. -/
theorem budget_exhaustion_aborts_witness :
    ¬ (0 : Nat) < 0 ∧
    (solveAux pX bNone envFail 1 5 (some 0) 1 0 (add_base_constraints pX) ⟨∅, ∅⟩ () =
       some (Outcome.aborted, add_base_constraints pX) ∧
     outcomeBool Outcome.aborted = false ∧
     outcomeBool Outcome.exhausted = false) :=
  ⟨by decide,
   budget_exhaustion_aborts pX bNone envFail 1 5 0 0 0 (add_base_constraints pX)
     ⟨∅, ∅⟩ () (by decide)⟩

/-- Claim C6 (amended): an unsat report is signalled by resolve raising
UnsatException (the Except.error of the embedding), which the solve loop
catches, terminating with the exhausted outcome; solve then returns False. -/
theorem unsat_raises_and_loop_exhausts (p : Params)
    (B : List Formula → Option (Var → Bool)) {E : Type} (env : EnvModel E)
    (epFuel max_eps : Nat) (maxiters : Option Nat) (fuel i : Nat)
    (A : List Formula) (st : HState) (e : E)
    (hb : budgetLeft maxiters i = true)
    (hunsat : B (A ++ nogoodAssertions st) = none) :
    (resolve B A st).2 = Except.error UnsatException.mk ∧
    solveAux p B env epFuel max_eps maxiters (fuel + 1) i A st e =
      some (Outcome.exhausted, A ++ nogoodAssertions st) ∧
    outcomeBool Outcome.exhausted = false := by
  refine ⟨?_, ?_, rfl⟩
  · show (match B (A ++ nogoodAssertions st) with
      | some v => Except.ok v
      | none => Except.error UnsatException.mk) = _
    rw [hunsat]
  · rw [solveAux_step, if_pos hb, hunsat]

/-- Claim C6 is false as stated: at a concrete unsatisfiable input the
signal leaves resolve as the raised UnsatException, not as a typed result
value of the solve step. -/
theorem unsat_thrown_counterexample :
    (resolve bNone [] ⟨∅, ∅⟩).2 = Except.error UnsatException.mk ∧
    (resolve bNone [] ⟨∅, ∅⟩).1 = ([], ⟨∅, ∅⟩) := by
  constructor
  · simp [resolve, nogoodAssertions, bNone]
  · simp [resolve, nogoodAssertions, bNone]

/-- Witness for the amended C6 at a concrete input. -/
theorem unsat_raises_witness :
    budgetLeft none 0 = true ∧
    bNone (add_base_constraints pX ++ nogoodAssertions ⟨∅, ∅⟩) = none ∧
    ((resolve bNone (add_base_constraints pX) ⟨∅, ∅⟩).2 =
        Except.error UnsatException.mk ∧
     solveAux pX bNone envFail 1 5 none 1 0 (add_base_constraints pX) ⟨∅, ∅⟩ () =
       some (Outcome.exhausted, add_base_constraints pX ++ nogoodAssertions ⟨∅, ∅⟩) ∧
     outcomeBool Outcome.exhausted = false) :=
  ⟨rfl, rfl,
   unsat_raises_and_loop_exhausts pX bNone envFail 1 5 none 0 0
     (add_base_constraints pX) ⟨∅, ∅⟩ () rfl rfl⟩

/-- Witness for C10 at concrete inputs: a one-hot decode under v7 yields
the positive literal of the index-1 member, and the nogood over it forbids
exactly agreement with v7 on it. -/
theorem literal_polarity_witness :
    (decodeRep v7 (RuleRep.onehot (groupVars RuleKind.write 0 0 3)) =
      some (1, (Var.onehot RuleKind.write 0 0 1, true))) ∧
    ((Var.onehot RuleKind.write 0 0 1, true).2 = true ∧
      (Var.onehot RuleKind.write 0 0 1, true).1 ∈ groupVars RuleKind.write 0 0 3 ∧
      v7 (Var.onehot RuleKind.write 0 0 1, true).1 = true ∧
      (groupVars RuleKind.write 0 0 3)[1]? = some (Var.onehot RuleKind.write 0 0 1, true).1 ∧
      ((groupVars RuleKind.write 0 0 3).countP (fun x => v7 x) = 1 →
        ∀ j y, (groupVars RuleKind.write 0 0 3)[j]? = some y → v7 y = true → j = 1)) :=
  ⟨by decide,
   literal_polarity.1 v7 (groupVars RuleKind.write 0 0 3) 1
     (Var.onehot RuleKind.write 0 0 1, true) (by decide)⟩

theorem eval_congr (f : Formula) (w1 w2 : Var → Bool)
    (h : ∀ x ∈ formulaVars f, w1 x = w2 x) : f.eval w1 = f.eval w2 := by
  cases f with
  | exactlyOne xs =>
    show (xs.countP (fun x => w1 x) == 1) = (xs.countP (fun x => w2 x) == 1)
    have hc : xs.countP (fun x => w1 x) = xs.countP (fun x => w2 x) := by
      apply List.countP_congr
      intro x hx
      have := h x (by simpa [formulaVars] using hx)
      simp [this]
    rw [hc]
  | notAnd s =>
    show (!(decide (∀ l ∈ s, evalLit w1 l = true))) =
      (!(decide (∀ l ∈ s, evalLit w2 l = true)))
    have key : ∀ l ∈ s, evalLit w1 l = evalLit w2 l := by
      intro l hl
      have hx : w1 l.1 = w2 l.1 := h l.1 (Finset.mem_image.mpr ⟨l, hl, rfl⟩)
      unfold evalLit
      rw [hx]
    have hiff : (∀ l ∈ s, evalLit w1 l = true) ↔ (∀ l ∈ s, evalLit w2 l = true) := by
      constructor <;> intro hall l hl
      · rw [← key l hl]; exact hall l hl
      · rw [key l hl]; exact hall l hl
    rw [decide_eq_decide.mpr hiff]

theorem mem_listVars (x : Var) : ∀ (A : List Formula),
    x ∈ listVars A ↔ ∃ f ∈ A, x ∈ formulaVars f := by
  intro A
  induction A with
  | nil => simp [listVars]
  | cons f rest ih => simp [listVars, ih, Finset.mem_union, List.mem_cons, or_and_right,
      exists_or]

theorem formulaVars_subset_listVars (f : Formula) (A : List Formula) (hf : f ∈ A) :
    formulaVars f ⊆ listVars A := fun x hx => (mem_listVars x A).mpr ⟨f, hf, hx⟩

theorem listVars_append (A B : List Formula) :
    listVars (A ++ B) = listVars A ∪ listVars B := by
  induction A with
  | nil => simp [listVars]
  | cons f rest ih => simp [listVars, ih, Finset.union_assoc]

theorem satisfies_append (w : Var → Bool) (A B : List Formula) :
    satisfies w (A ++ B) ↔ satisfies w A ∧ satisfies w B := by
  unfold satisfies
  constructor
  · intro h
    exact ⟨fun f hf => h f (List.mem_append_left _ hf),
           fun f hf => h f (List.mem_append_right _ hf)⟩
  · intro h f hf
    rcases List.mem_append.mp hf with hf | hf
    · exact h.1 f hf
    · exact h.2 f hf

theorem extendR_restrR (p : Params) (w : Var → Bool) (x : Var)
    (hx : x ∈ allVars p) : extendR p (restrR p w) x = w x := by
  unfold extendR restrR
  rw [dif_pos hx]

theorem eval_extendR_restrR (p : Params) (f : Formula) (w : Var → Bool)
    (hf : formulaVars f ⊆ allVars p) :
    f.eval (extendR p (restrR p w)) = f.eval w :=
  eval_congr f _ w (fun x hx => extendR_restrR p w x (hf hx))

theorem satCount_append_lt (p : Params) (A : List Formula) (f0 : Formula)
    (v : Var → Bool) (hvars : listVars A ⊆ allVars p)
    (hf0vars : formulaVars f0 ⊆ allVars p)
    (hsat : satisfies v A) (hf0 : f0.eval v = false) :
    satCount p (A ++ [f0]) < satCount p A := by
  unfold satCount
  apply Finset.card_lt_card
  have hsub : Finset.univ.filter
      (fun g : Restr p => (A ++ [f0]).all (fun f => f.eval (extendR p g)) = true) ⊆
    Finset.univ.filter
      (fun g : Restr p => A.all (fun f => f.eval (extendR p g)) = true) := by
    intro g hg
    rw [Finset.mem_filter] at hg ⊢
    refine ⟨hg.1, ?_⟩
    have h2 := hg.2
    rw [List.all_append] at h2
    exact ((Bool.and_eq_true _ _).mp h2).1
  rw [Finset.ssubset_iff_of_subset hsub]
  refine ⟨restrR p v, ?_, ?_⟩
  · rw [Finset.mem_filter]
    refine ⟨Finset.mem_univ _, ?_⟩
    rw [List.all_eq_true]
    intro f hf
    rw [eval_extendR_restrR p f v
      (subset_trans (formulaVars_subset_listVars f A hf) hvars)]
    exact hsat f hf
  · intro hmem
    rw [Finset.mem_filter] at hmem
    obtain ⟨-, hall⟩ := hmem
    rw [List.all_eq_true] at hall
    have hbad := hall f0 (by simp)
    rw [eval_extendR_restrR p f0 v hf0vars, hf0] at hbad
    exact Bool.noConfusion hbad

theorem satCount_pos (p : Params) (A : List Formula) (v : Var → Bool)
    (hvars : listVars A ⊆ allVars p) (hsat : satisfies v A) :
    1 ≤ satCount p A := by
  unfold satCount
  rw [Nat.one_le_iff_ne_zero, ← Nat.pos_iff_ne_zero, Finset.card_pos]
  refine ⟨restrR p v, ?_⟩
  rw [Finset.mem_filter]
  refine ⟨Finset.mem_univ _, ?_⟩
  rw [List.all_eq_true]
  intro f hf
  rw [eval_extendR_restrR p f v
    (subset_trans (formulaVars_subset_listVars f A hf) hvars)]
  exact hsat f hf

theorem satCount_le (p : Params) (A : List Formula) :
    satCount p A ≤ 2 ^ (allVars p).card := by
  unfold satCount
  calc (Finset.univ.filter _).card
      ≤ (Finset.univ : Finset (Restr p)).card := Finset.card_filter_le _ _
    _ = 2 ^ (allVars p).card := by
        rw [Finset.card_univ]
        rw [Fintype.card_fun]
        simp

theorem mem_allVars_of (p : Params) (k : RuleKind) (state obs : Nat) (x : Var)
    (hs : state < p.n_states) (ho : obs < p.n_chars + 1)
    (hx : x ∈ repVars (ruleRep k (kindDomain p k) state obs)) : x ∈ allVars p := by
  unfold allVars
  rw [List.mem_toFinset]
  unfold allVarsList
  rw [List.mem_flatMap]
  refine ⟨(state, obs), (mem_keysList p state obs).mpr ⟨hs, ho⟩, ?_⟩
  cases k with
  | dir => exact List.mem_append_left _ (List.mem_append_left _ hx)
  | write => exact List.mem_append_left _ (List.mem_append_right _ hx)
  | state_ => exact List.mem_append_right _ hx

theorem decodeAt_lit_facts (p : Params) (v : Var → Bool) (k : RuleKind)
    (obs state n : Nat) (l : Lit) (h : decodeAt p v k obs state = some (n, l)) :
    evalLit v l = true ∧ l.1 ∈ allVars p := by
  unfold decodeAt at h
  cases hg : getRule p k state obs with
  | none => rw [hg] at h; exact Option.noConfusion h
  | some rep =>
    rw [hg] at h
    have h2 : decodeRep v rep = some (n, l) := h
    unfold getRule at hg
    by_cases hk : state < p.n_states ∧ obs < p.n_chars + 1
    · rw [if_pos hk, Option.some.injEq] at hg
      subst hg
      exact ⟨decodeRep_evalLit v _ n l h2,
        mem_allVars_of p k state obs l.1 hk.1 hk.2 (decodeRep_memVars v _ n l h2)⟩
    · rw [if_neg hk] at hg
      exact Option.noConfusion hg

theorem listVars_base (p : Params) :
    listVars (add_base_constraints p) ⊆ allVars p := by
  intro x hx
  rw [mem_listVars] at hx
  obtain ⟨f, hf, hxf⟩ := hx
  unfold add_base_constraints at hf
  rw [List.mem_append, List.mem_append] at hf
  have handle : ∀ k, f ∈ constraintsFor p k → x ∈ allVars p := by
    intro k hk
    unfold constraintsFor at hk
    by_cases h2 : kindDomain p k < 2
    · rw [if_pos h2] at hk
      exact absurd hk (List.not_mem_nil f)
    · rw [if_neg h2] at hk
      by_cases h3 : kindDomain p k = 2
      · rw [if_pos h3] at hk
        exact absurd hk (List.not_mem_nil f)
      · rw [if_neg h3] at hk
        rw [List.mem_map] at hk
        obtain ⟨so, hso, rfl⟩ := hk
        rw [mem_keysList] at hso
        have hx2 : x ∈ groupVars k so.1 so.2 (kindDomain p k) := by
          simpa [formulaVars, List.mem_toFinset] using hxf
        apply mem_allVars_of p k so.1 so.2 x hso.1 hso.2
        show x ∈ repVars (ruleRep k (kindDomain p k) so.1 so.2)
        unfold ruleRep
        rw [if_neg h3, if_pos (by omega)]
        exact hx2
  rcases hf with (hf | hf) | hf
  · exact handle RuleKind.dir hf
  · exact handle RuleKind.write hf
  · exact handle RuleKind.state_ hf

theorem stepWriteLit_facts (p : Params) (v : Var → Bool) (obs state : Nat)
    (w : Lit) (h : stepWriteLit p v obs state = some w) :
    evalLit v w = true ∧ w.1 ∈ allVars p := by
  unfold stepWriteLit at h
  cases hd : decodeAt p v RuleKind.write obs state with
  | none => rw [hd] at h; exact Option.noConfusion h
  | some rl =>
    rw [hd] at h
    have h2 : some rl.2 = some w := h
    simp only [Option.some.injEq] at h2
    rw [← h2]
    exact decodeAt_lit_facts p v RuleKind.write obs state rl.1 rl.2 hd

theorem stepDirLit_facts (p : Params) (v : Var → Bool) (obs state : Nat)
    (dl : Lit) (h : stepDirLit p v obs state = some dl) :
    evalLit v dl = true ∧ dl.1 ∈ allVars p := by
  unfold stepDirLit at h
  cases hd : decodeAt p v RuleKind.dir obs state with
  | none => rw [hd] at h; exact Option.noConfusion h
  | some rl =>
    rw [hd] at h
    have h2 : some rl.2 = some dl := h
    simp only [Option.some.injEq] at h2
    rw [← h2]
    exact decodeAt_lit_facts p v RuleKind.dir obs state rl.1 rl.2 hd

theorem stepPendLits_facts (p : Params) (v : Var → Bool) (obs state : Nat)
    (pend : Finset Lit) (h : stepPendLits p v obs state = some pend) :
    ∀ l ∈ pend, evalLit v l = true ∧ l.1 ∈ allVars p := by
  unfold stepPendLits at h
  by_cases hns : p.n_states = 1
  · rw [if_pos hns] at h
    cases hdl : stepDirLit p v obs state with
    | none => rw [hdl] at h; exact Option.noConfusion h
    | some dl =>
      rw [hdl] at h
      have h2 : some ({dl} : Finset Lit) = some pend := h
      simp only [Option.some.injEq] at h2
      intro l hl
      rw [← h2, Finset.mem_singleton] at hl
      subst hl
      exact stepDirLit_facts p v obs state l hdl
  · rw [if_neg hns] at h
    cases hdl : stepDirLit p v obs state with
    | none => rw [hdl] at h; exact Option.noConfusion h
    | some dl =>
      rw [hdl] at h
      cases hsd : decodeAt p v RuleKind.state_ obs state with
      | none => rw [hsd] at h; exact Option.noConfusion h
      | some rl =>
        rw [hsd] at h
        have h2 : some ({dl, rl.2} : Finset Lit) = some pend := h
        simp only [Option.some.injEq] at h2
        intro l hl
        rw [← h2, Finset.mem_insert, Finset.mem_singleton] at hl
        rcases hl with rfl | rfl
        · exact stepDirLit_facts p v obs state l hdl
        · exact decodeAt_lit_facts p v RuleKind.state_ obs state rl.1 rl.2 hsd

theorem stOK_empty (p : Params) (v : Var → Bool) : stOK p v ⟨∅, ∅⟩ := by
  intro l hl
  simp at hl

theorem episodeBody_stOK (p : Params) (v : Var → Bool) (st : HState)
    (obs state : Nat) (a : Nat × Nat × Nat) (state' : Nat) (st2 : HState)
    (h : episodeBody p v st obs state = some (a, state', st2))
    (h1 : stOK p v st) : stOK p v st2 := by
  obtain ⟨w, pend, hw, hp, hn, hd, hb⟩ :=
    episodeBody_sets p v st obs state a state' st2 h
  intro l hl
  rw [Finset.mem_union] at hl
  rcases hl with hl | hl
  · rw [hd, Finset.mem_insert] at hl
    rcases hl with rfl | hl
    · exact stepWriteLit_facts p v obs state l hw
    · exact h1 l hl
  · rw [hb] at hl
    exact stepPendLits_facts p v obs state pend hp l hl

theorem runEpisodeLoop_stOK (p : Params) (v : Var → Bool) {E : Type}
    (env : EnvModel E) :
    ∀ (fuel : Nat) (e : E) (obs state : Nat) (st : HState) (total : ℚ)
      (b : Bool) (tot : ℚ) (stf : HState) (ef : E),
      runEpisodeLoop p v env fuel e obs state st total = some (b, tot, stf, ef) →
      stOK p v st → stOK p v stf := by
  intro fuel
  induction fuel with
  | zero => intro e obs state st total b tot stf ef h; exact Option.noConfusion h
  | succ n ih =>
    intro e obs state st total b tot stf ef h hok
    rw [runEpisodeLoop] at h
    cases hbody : episodeBody p v st obs state with
    | none => rw [hbody] at h; exact Option.noConfusion h
    | some trip =>
      obtain ⟨a, state', st'⟩ := trip
      rw [hbody] at h
      have hok' := episodeBody_stOK p v st obs state a state' st' hbody hok
      have h1 : (match env.step e a with
          | (e', obs', r, done) =>
            if done = true then some (decide (0 < r), total + r, st', e')
            else runEpisodeLoop p v env n e' obs' state' st' (total + r)) =
          some (b, tot, stf, ef) := h
      rcases hstep : env.step e a with ⟨e', obs', r, done⟩
      rw [hstep] at h1
      have h2 : (if done = true then some (decide (0 < r), total + r, st', e')
          else runEpisodeLoop p v env n e' obs' state' st' (total + r)) =
          some (b, tot, stf, ef) := h1
      by_cases hdone : done = true
      · rw [if_pos hdone] at h2
        have h3 : some (decide (0 < r), total + r, st', e') = some (b, tot, stf, ef) := h2
        simp only [Option.some.injEq, Prod.mk.injEq] at h3
        rw [← h3.2.2.1]
        exact hok'
      · rw [if_neg hdone] at h2
        exact ih e' obs' state' st' (total + r) b tot stf ef h2 hok'

theorem run_episode_stOK (p : Params) (v : Var → Bool) {E : Type}
    (env : EnvModel E) (epFuel : Nat) (e : E) (st : HState) (b : Bool)
    (tot : ℚ) (stf : HState) (ef : E)
    (h : run_episode p v env epFuel e st = some (b, tot, stf, ef))
    (hok : stOK p v st) : stOK p v stf := by
  unfold run_episode at h
  rcases hr : env.reset e with ⟨e1, obs0⟩
  rw [hr] at h
  exact runEpisodeLoop_stOK p v env epFuel e1 obs0 0 st 0 b tot stf ef h hok

theorem run_episode_dirty_ne (p : Params) (v : Var → Bool) {E : Type}
    (env : EnvModel E) (epFuel : Nat) (e : E) (st : HState) (b : Bool)
    (tot : ℚ) (st' : HState) (e' : E)
    (h : run_episode p v env epFuel e st = some (b, tot, st', e')) :
    st'.dirty_variables ≠ ∅ := by
  obtain ⟨l, sf, htr, hne, hobs⟩ :=
    run_episode_trace p v env epFuel e st b tot st' e' h
  obtain ⟨C, P, hspec, hOr⟩ := runObsSteps_spec p v l 0 st sf st' hobs
  rcases hOr with ⟨hnil, -⟩ | ⟨-, hd, -⟩
  · exact absurd hnil hne
  · cases l with
    | nil => exact absurd rfl hne
    | cons o r =>
      have hCne := specProvenance_fst_nonempty p v o r 0 C P hspec
      rw [hd]
      intro hemp
      have hsubC : C ⊆ st.dirty_variables ∪ st.dirty_buffer ∪ C :=
        Finset.subset_union_right
      rw [hemp] at hsubC
      exact hCne (Finset.subset_empty.mp hsubC)

theorem tryModelLoop_stOK (p : Params) (v : Var → Bool) {E : Type}
    (env : EnvModel E) (epFuel : Nat) :
    ∀ (rem : Nat) (e : E) (st : HState) (g : Nat) (lastR : Option ℚ)
      (b : Bool) (r : ℚ) (g' : Nat) (st' : HState) (e' : E),
      tryModelLoop p v env epFuel rem e st g lastR = some (b, r, g', st', e') →
      stOK p v st → stOK p v st' := by
  intro rem
  induction rem with
  | zero =>
    intro e st g lastR b r g' st' e' h hok
    cases lastR with
    | none => exact Option.noConfusion h
    | some r0 =>
      have h2 : some (decide (env.reward_threshold ≤ r0), r0, g, st, e) =
          some (b, r, g', st', e') := h
      simp only [Option.some.injEq, Prod.mk.injEq] at h2
      rw [← h2.2.2.2.1]
      exact hok
  | succ n ih =>
    intro e st g lastR b r g' st' e' h hok
    rw [tryModelLoop] at h
    cases hrun : run_episode p v env epFuel e st with
    | none => rw [hrun] at h; exact Option.noConfusion h
    | some res =>
      obtain ⟨succ, r0, st0, e0⟩ := res
      rw [hrun] at h
      have hok0 := run_episode_stOK p v env epFuel e st succ r0 st0 e0 hrun hok
      have h1 : (if succ = true then
          (if env.reward_threshold ≤ r0 then
            some (decide (env.reward_threshold ≤ r0), r0, g + 1, st0, e0)
           else tryModelLoop p v env epFuel n e0 (clear_dirty st0) (g + 1) (some r0))
         else some (decide (env.reward_threshold ≤ r0), r0, g, st0, e0)) =
          some (b, r, g', st', e') := h
      by_cases hs : succ = true
      · rw [if_pos hs] at h1
        by_cases hth : env.reward_threshold ≤ r0
        · rw [if_pos hth] at h1
          simp only [Option.some.injEq, Prod.mk.injEq] at h1
          rw [← h1.2.2.2.1]
          exact hok0
        · rw [if_neg hth] at h1
          exact ih e0 (clear_dirty st0) (g + 1) (some r0) b r g' st' e' h1
            (stOK_empty p v)
      · rw [if_neg hs] at h1
        simp only [Option.some.injEq, Prod.mk.injEq] at h1
        rw [← h1.2.2.2.1]
        exact hok0

theorem tryModelLoop_false_dirty (p : Params) (v : Var → Bool) {E : Type}
    (env : EnvModel E) (epFuel : Nat) :
    ∀ (rem : Nat) (e : E) (st : HState) (g : Nat) (lastR : Option ℚ)
      (r : ℚ) (g' : Nat) (st' : HState) (e' : E),
      tryModelLoop p v env epFuel rem e st g lastR = some (false, r, g', st', e') →
      g' < g + rem → st'.dirty_variables ≠ ∅ := by
  intro rem
  induction rem with
  | zero =>
    intro e st g lastR r g' st' e' h hlt
    cases lastR with
    | none => exact Option.noConfusion h
    | some r0 =>
      have h2 : some (decide (env.reward_threshold ≤ r0), r0, g, st, e) =
          some (false, r, g', st', e') := h
      simp only [Option.some.injEq, Prod.mk.injEq] at h2
      rw [h2.2.2.1] at hlt
      omega
  | succ n ih =>
    intro e st g lastR r g' st' e' h hlt
    rw [tryModelLoop] at h
    cases hrun : run_episode p v env epFuel e st with
    | none => rw [hrun] at h; exact Option.noConfusion h
    | some res =>
      obtain ⟨succ, r0, st0, e0⟩ := res
      rw [hrun] at h
      have h1 : (if succ = true then
          (if env.reward_threshold ≤ r0 then
            some (decide (env.reward_threshold ≤ r0), r0, g + 1, st0, e0)
           else tryModelLoop p v env epFuel n e0 (clear_dirty st0) (g + 1) (some r0))
         else some (decide (env.reward_threshold ≤ r0), r0, g, st0, e0)) =
          some (false, r, g', st', e') := h
      by_cases hs : succ = true
      · rw [if_pos hs] at h1
        by_cases hth : env.reward_threshold ≤ r0
        · rw [if_pos hth] at h1
          simp only [Option.some.injEq, Prod.mk.injEq] at h1
          rw [decide_eq_true hth] at h1
          exact Bool.noConfusion h1.1
        · rw [if_neg hth] at h1
          exact ih e0 (clear_dirty st0) (g + 1) (some r0) r g' st' e' h1 (by omega)
      · rw [if_neg hs] at h1
        simp only [Option.some.injEq, Prod.mk.injEq] at h1
        rw [← h1.2.2.2.1]
        exact run_episode_dirty_ne p v env epFuel e st succ r0 st0 e0 hrun

theorem tryModelLoop_isSome (p : Params) (v : Var → Bool) {E : Type}
    (env : EnvModel E) (epFuel : Nat)
    (hep : ∀ (e : E) (st : HState), (run_episode p v env epFuel e st).isSome = true) :
    ∀ (rem : Nat) (e : E) (st : HState) (g : Nat) (lastR : Option ℚ),
      (lastR ≠ none ∨ 0 < rem) →
      (tryModelLoop p v env epFuel rem e st g lastR).isSome = true := by
  intro rem
  induction rem with
  | zero =>
    intro e st g lastR h
    cases lastR with
    | none =>
      rcases h with h | h
      · exact absurd rfl h
      · omega
    | some r0 => rfl
  | succ n ih =>
    intro e st g lastR _
    rw [tryModelLoop]
    obtain ⟨res, hrun⟩ := Option.isSome_iff_exists.mp (hep e st)
    obtain ⟨succ, r0, st0, e0⟩ := res
    rw [hrun]
    show (if succ = true then
        (if env.reward_threshold ≤ r0 then
          some (decide (env.reward_threshold ≤ r0), r0, g + 1, st0, e0)
         else tryModelLoop p v env epFuel n e0 (clear_dirty st0) (g + 1) (some r0))
       else some (decide (env.reward_threshold ≤ r0), r0, g, st0, e0)).isSome = true
    by_cases hs : succ = true
    · rw [if_pos hs]
      by_cases hth : env.reward_threshold ≤ r0
      · rw [if_pos hth]
        rfl
      · rw [if_neg hth]
        cases n with
        | zero => exact ih e0 (clear_dirty st0) (g + 1) (some r0) (Or.inl (by simp))
        | succ m => exact ih e0 (clear_dirty st0) (g + 1) (some r0) (Or.inl (by simp))
    · rw [if_neg hs]
      rfl

theorem solveAux_descent (p : Params) (B : List Formula → Option (Var → Bool))
    {E : Type} (env : EnvModel E) (epFuel max_eps : Nat)
    (hB : BackendOk p B) (hE : EnvOk p env epFuel max_eps) (hme : 1 ≤ max_eps) :
    ∀ (n fuel i : Nat) (A : List Formula) (st : HState) (e : E),
      listVars A ⊆ allVars p →
      add_base_constraints p ⊆ A →
      (st.dirty_variables = ∅ ∨ ∃ v, satisfies v A ∧ stOK p v st) →
      satCount p (A ++ nogoodAssertions st) ≤ n →
      n + 1 ≤ fuel →
      ∃ out Afin,
        solveAux p B env epFuel max_eps none fuel i A st e = some (out, Afin) ∧
        listVars Afin ⊆ allVars p ∧
        (out = Outcome.exhausted → ∀ w, ¬ satisfies w Afin) ∧
        (out = Outcome.succeeded → ∃ w, satisfies w Afin) ∧
        out ≠ Outcome.aborted := by
  intro n
  induction n using Nat.strong_induction_on with
  | _ n ih =>
    intro fuel i A st e hA hbase hprev hcount hfuel
    obtain ⟨fuel', rfl⟩ : ∃ f', fuel = f' + 1 := ⟨fuel - 1, by omega⟩
    have hbudget : budgetLeft none i = true := rfl
    have hA'vars : listVars (A ++ nogoodAssertions st) ⊆ allVars p := by
      rw [listVars_append]
      apply Finset.union_subset hA
      unfold nogoodAssertions
      by_cases hd : st.dirty_variables = ∅
      · rw [if_pos hd]
        intro x hx
        simp [listVars] at hx
      · rw [if_neg hd]
        rcases hprev with hprev | ⟨v, hsat, hok⟩
        · exact absurd hprev hd
        · intro x hx
          rw [mem_listVars] at hx
          obtain ⟨f, hf, hxf⟩ := hx
          rw [List.mem_singleton] at hf
          subst hf
          obtain ⟨l, hl, rfl⟩ := Finset.mem_image.mp hxf
          exact (hok l (Finset.mem_union_left _ hl)).2
    cases hBres : B (A ++ nogoodAssertions st) with
    | none =>
      refine ⟨Outcome.exhausted, A ++ nogoodAssertions st, ?_, hA'vars, ?_, ?_, ?_⟩
      · rw [solveAux_step, if_pos hbudget, hBres]
      · intro _ w hw
        exact hB.2 (A ++ nogoodAssertions st) hA'vars hBres w hw
      · intro hcontra
        exact Outcome.noConfusion hcontra
      · intro hcontra
        exact Outcome.noConfusion hcontra
    | some v =>
      have hsatv : satisfies v (A ++ nogoodAssertions st) := hB.1 _ v hBres
      have hsatbase : satisfies v (add_base_constraints p) := by
        intro f hf
        exact hsatv f (List.mem_append_left _ (hbase hf))
      have hTis : (try_model p v env epFuel max_eps e ⟨∅, ∅⟩).isSome = true := by
        apply tryModelLoop_isSome p v env epFuel (hE.1 v hsatbase) max_eps e ⟨∅, ∅⟩ 0 none
        right
        omega
      obtain ⟨res, hT⟩ := Option.isSome_iff_exists.mp hTis
      obtain ⟨b, r, g, st'', e''⟩ := res
      have heq : solveAux p B env epFuel max_eps none (fuel' + 1) i A st e =
          (if b = true then some (Outcome.succeeded, A ++ nogoodAssertions st)
           else solveAux p B env epFuel max_eps none fuel' (i + 1)
             (A ++ nogoodAssertions st) st'' e'') := by
        rw [solveAux_step, if_pos hbudget, hBres]
        show (match try_model p v env epFuel max_eps e ⟨∅, ∅⟩ with
          | none => none
          | some (b, _, _, st'', e'') =>
            if b = true then some (Outcome.succeeded, A ++ nogoodAssertions st)
            else solveAux p B env epFuel max_eps none fuel' (i + 1)
              (A ++ nogoodAssertions st) st'' e'') = _
        rw [hT]
      by_cases hb : b = true
      · rw [if_pos hb] at heq
        refine ⟨Outcome.succeeded, A ++ nogoodAssertions st, heq, hA'vars, ?_, ?_, ?_⟩
        · intro hcontra
          exact Outcome.noConfusion hcontra
        · intro _
          exact ⟨v, hsatv⟩
        · intro hcontra
          exact Outcome.noConfusion hcontra
      · rw [if_neg hb] at heq
        have hbfalse : b = false := by
          cases b
          · rfl
          · exact absurd rfl hb
        subst hbfalse
        have hgood : g < max_eps := hE.2 v hsatbase e ⟨∅, ∅⟩ false r g st'' e'' hT rfl
        have hdirty : st''.dirty_variables ≠ ∅ :=
          tryModelLoop_false_dirty p v env epFuel max_eps e ⟨∅, ∅⟩ 0 none
            r g st'' e'' hT (by omega)
        have hok'' : stOK p v st'' :=
          tryModelLoop_stOK p v env epFuel max_eps e ⟨∅, ∅⟩ 0 none
            false r g st'' e'' hT (stOK_empty p v)
        have hng : nogoodAssertions st'' = [Formula.notAnd st''.dirty_variables] := by
          unfold nogoodAssertions
          rw [if_neg hdirty]
        have hngvars : formulaVars (Formula.notAnd st''.dirty_variables) ⊆ allVars p := by
          intro x hx
          obtain ⟨l, hl, rfl⟩ := Finset.mem_image.mp hx
          exact (hok'' l (Finset.mem_union_left _ hl)).2
        have hfalse : (Formula.notAnd st''.dirty_variables).eval v = false := by
          cases hres : (Formula.notAnd st''.dirty_variables).eval v with
          | false => rfl
          | true =>
            rw [notAnd_eval_true_iff] at hres
            obtain ⟨l, hl, hlf⟩ := hres
            have hlt := (hok'' l (Finset.mem_union_left _ hl)).1
            rw [hlt] at hlf
            exact Bool.noConfusion hlf
        have hdec : satCount p ((A ++ nogoodAssertions st) ++
              [Formula.notAnd st''.dirty_variables]) <
            satCount p (A ++ nogoodAssertions st) :=
          satCount_append_lt p (A ++ nogoodAssertions st) _ v hA'vars hngvars hsatv hfalse
        have hpos : 1 ≤ satCount p (A ++ nogoodAssertions st) :=
          satCount_pos p _ v hA'vars hsatv
        have hcount'' : satCount p ((A ++ nogoodAssertions st) ++ nogoodAssertions st'') ≤
            n - 1 := by
          rw [hng]
          omega
        obtain ⟨out, Afin, hrun, hAfin, hex, hsucc2, hnab⟩ :=
          ih (n - 1) (by omega) fuel' (i + 1) (A ++ nogoodAssertions st) st'' e''
            hA'vars (fun f hf => List.mem_append_left _ (hbase hf))
            (Or.inr ⟨v, hsatv, hok''⟩) hcount'' (by omega)
        exact ⟨out, Afin, heq.trans hrun, hAfin, hex, hsucc2, hnab⟩

/-- Claim C4: for a fixed state count (hence a finite variable set), with
the backend and environment behaving per contract (returned assignments
satisfy every assertion, unsat reports are sound over the encoding
variables, every episode terminates, and no candidate evaluation ends
undecided at the failsafe cap), the refinement loop with an unlimited
iteration budget terminates within 2 ^ |variables| + 1 iterations -- each
failure asserts a nogood excluding the current assignment and the
assignments are finitely many -- and it ends Exhausted exactly when no
assignment satisfies all constraints learned by then; it never aborts. -/
theorem refinement_terminates (p : Params) (B : List Formula → Option (Var → Bool))
    {E : Type} (env : EnvModel E) (epFuel max_eps : Nat)
    (hB : BackendOk p B) (hE : EnvOk p env epFuel max_eps) (hme : 1 ≤ max_eps)
    (e : E) :
    ∃ out Afin,
      solveAux p B env epFuel max_eps none (2 ^ (allVars p).card + 1) 0
        (add_base_constraints p) ⟨∅, ∅⟩ e = some (out, Afin) ∧
      out ≠ Outcome.aborted ∧
      (out = Outcome.exhausted ↔ ¬ ∃ w, satisfies w Afin) := by
  have hcount : satCount p (add_base_constraints p ++ nogoodAssertions ⟨∅, ∅⟩) ≤
      2 ^ (allVars p).card := by
    have hng : nogoodAssertions (⟨∅, ∅⟩ : HState) = [] := by
      unfold nogoodAssertions
      rw [if_pos rfl]
    rw [hng, List.append_nil]
    exact satCount_le p _
  obtain ⟨out, Afin, hrun, hAV, hex, hsucc, hnab⟩ :=
    solveAux_descent p B env epFuel max_eps hB hE hme (2 ^ (allVars p).card)
      (2 ^ (allVars p).card + 1) 0 (add_base_constraints p) ⟨∅, ∅⟩ e
      (listVars_base p) (fun f hf => hf) (Or.inl rfl) hcount (le_refl _)
  refine ⟨out, Afin, hrun, hnab, ?_, ?_⟩
  · intro hexx hw
    obtain ⟨w, hww⟩ := hw
    exact hex hexx w hww
  · intro hnone
    cases out with
    | exhausted => rfl
    | succeeded => exact absurd (hsucc rfl) hnone
    | aborted => exact absurd rfl hnab

theorem buildCands_complete :
    ∀ (l : List Var) (w : Var → Bool),
      ∃ w' ∈ buildCands l, ∀ x ∈ l, w' x = w x := by
  intro l
  induction l with
  | nil =>
    intro w
    exact ⟨fun _ => false, by simp [buildCands], by simp⟩
  | cons y ys ih =>
    intro w
    obtain ⟨w', hw'mem, hw'ag⟩ := ih w
    refine ⟨Function.update w' y (w y), ?_, ?_⟩
    · rw [buildCands, List.mem_flatMap]
      refine ⟨w', hw'mem, ?_⟩
      cases hwy : w y
      · simp
      · simp
    · intro x hx
      rcases List.mem_cons.mp hx with rfl | hx'
      · rw [Function.update_same]
      · by_cases hxy : x = y
        · subst hxy
          rw [Function.update_same]
        · rw [Function.update_noteq hxy]
          exact hw'ag x hx'

theorem bruteBackend_ok (p : Params) : BackendOk p (bruteBackend p) := by
  constructor
  · intro A v h
    unfold bruteBackend at h
    have h2 := List.find?_some h
    intro f hf
    rw [List.all_eq_true] at h2
    exact h2 f hf
  · intro A hAv h w hsat
    unfold bruteBackend at h
    rw [List.find?_eq_none] at h
    obtain ⟨w', hw'mem, hw'ag⟩ := buildCands_complete (allVarsList p) w
    apply h w' hw'mem
    rw [List.all_eq_true]
    intro f hf
    have hfv : formulaVars f ⊆ allVars p :=
      subset_trans (formulaVars_subset_listVars f A hf) hAv
    have hev : f.eval w' = f.eval w := by
      apply eval_congr
      intro x hx
      apply hw'ag
      have hmem := hfv hx
      unfold allVars at hmem
      rw [List.mem_toFinset] at hmem
      exact hmem
    rw [hev]
    exact hsat f hf

theorem envWin_episode (v : Var → Bool) (e : Unit) (st : HState) :
    run_episode pX v envWin 1 e st =
      some (true, 30,
        ⟨insert (Var.single RuleKind.write 0 0, v (Var.single RuleKind.write 0 0))
          (st.dirty_variables ∪ st.dirty_buffer),
         {(Var.single RuleKind.dir 0 0, v (Var.single RuleKind.dir 0 0))}⟩, ()) := by
  norm_num [run_episode, runEpisodeLoop, episodeBody, get_action, get_state,
    lookupRule, decodeAt, getRule, decodeRep, ruleRep, record, flushBuffer,
    envWin, pX, kindDomain]

theorem tryModel_envWin (v : Var → Bool) (e : Unit) (st : HState) :
    try_model pX v envWin 1 5 e st =
      some (true, 30, 1,
        ⟨insert (Var.single RuleKind.write 0 0, v (Var.single RuleKind.write 0 0))
          (st.dirty_variables ∪ st.dirty_buffer),
         {(Var.single RuleKind.dir 0 0, v (Var.single RuleKind.dir 0 0))}⟩, ()) := by
  show tryModelLoop pX v envWin 1 (4 + 1) e st 0 none = _
  rw [tryModelLoop, envWin_episode v e st]
  have hth : envWin.reward_threshold ≤ (30 : ℚ) := by norm_num [envWin]
  simp [hth]

theorem envWin_envok : EnvOk pX envWin 1 5 := by
  constructor
  · intro v _ e st
    rw [envWin_episode v e st]
    rfl
  · intro v _ e st b r g st' e' h hb
    rw [tryModel_envWin v e st] at h
    simp only [Option.some.injEq, Prod.mk.injEq] at h
    rw [← h.1] at hb
    exact Bool.noConfusion hb

/-- Witness for C4 at a concrete input: the brute-force reference backend
over the pX encoding together with the immediately-qualifying environment
envWin. -/
theorem refinement_terminates_witness :
    BackendOk pX (bruteBackend pX) ∧ EnvOk pX envWin 1 5 ∧ (1 : Nat) ≤ 5 ∧
    (∃ out Afin,
      solveAux pX (bruteBackend pX) envWin 1 5 none (2 ^ (allVars pX).card + 1) 0
        (add_base_constraints pX) ⟨∅, ∅⟩ () = some (out, Afin) ∧
      out ≠ Outcome.aborted ∧
      (out = Outcome.exhausted ↔ ¬ ∃ w, satisfies w Afin)) :=
  ⟨bruteBackend_ok pX, envWin_envok, by decide,
   refinement_terminates pX (bruteBackend pX) envWin 1 5 (bruteBackend_ok pX)
     envWin_envok (by decide) ()⟩

end AlgoConstraint
